import Mathlib

/-!
Verification of the `ahocorasick_rs` binding layer (`src/lib.rs`) against its
specification.  The binding code (pattern collection, the retention
heuristic, empty-pattern rejection, the byte-offset-to-codepoint table, and
the two match-reporting entry points) is embedded from the source.  The
matching engine itself (the `aho_corasick` crate) is not part of this
repository's sources, so it is modelled from the specification (sections
4.2, 4.3 and the glossary), as noted on each definition concerned.
-/

/-- A byte string: bytes are natural numbers (below 256 in all real inputs). -/
abbrev ByteStr := List Nat

/-- Number of bytes in the UTF-8 encoding of a single codepoint. -/
def utf8Len1 (c : Nat) : Nat :=
  if c < 128 then 1 else if c < 2048 then 2 else if c < 65536 then 3 else 4

/-- UTF-8 encoding of a single codepoint, as Rust encodes a `char`. -/
def utf8EncodeChar (c : Nat) : ByteStr :=
  if c < 128 then [c]
  else if c < 2048 then [192 + c / 64, 128 + c % 64]
  else if c < 65536 then [224 + c / 4096, 128 + c / 64 % 64, 128 + c % 64]
  else [240 + c / 262144, 128 + c / 4096 % 64, 128 + c / 64 % 64, 128 + c % 64]

/-- UTF-8 encoding of a sequence of codepoints (the bytes of a Rust `String`). -/
def utf8Encode (s : List Nat) : ByteStr := s.flatMap utf8EncodeChar

/-- Byte length of the UTF-8 encoding of a codepoint sequence. -/
def utf8ListLen (s : List Nat) : Nat := (utf8Encode s).length

theorem utf8EncodeChar_length (c : Nat) :
    (utf8EncodeChar c).length = utf8Len1 c := by
  unfold utf8EncodeChar utf8Len1
  split <;> [rfl; skip]
  split <;> [rfl; skip]
  split <;> rfl

theorem utf8Len1_pos (c : Nat) : 0 < utf8Len1 c := by
  unfold utf8Len1; split <;> [omega; split <;> [omega; split <;> omega]]

theorem utf8EncodeChar_ne_nil (c : Nat) : utf8EncodeChar c ≠ [] := by
  intro h
  have h1 := utf8EncodeChar_length c
  rw [h] at h1
  have h2 := utf8Len1_pos c
  simp at h1
  omega

theorem utf8EncodeChar_eq_of_lt128 (c : Nat) (h : c < 128) :
    utf8EncodeChar c = [c] := by
  unfold utf8EncodeChar; rw [if_pos h]

theorem utf8EncodeChar_eq_of_lt2048 (c : Nat) (h1 : ¬ c < 128) (h2 : c < 2048) :
    utf8EncodeChar c = [192 + c / 64, 128 + c % 64] := by
  unfold utf8EncodeChar; rw [if_neg h1, if_pos h2]

theorem utf8EncodeChar_eq_of_lt65536 (c : Nat) (h1 : ¬ c < 2048) (h2 : c < 65536) :
    utf8EncodeChar c = [224 + c / 4096, 128 + c / 64 % 64, 128 + c % 64] := by
  unfold utf8EncodeChar; rw [if_neg (by omega), if_neg h1, if_pos h2]

theorem utf8EncodeChar_eq_of_ge65536 (c : Nat) (h1 : ¬ c < 65536) :
    utf8EncodeChar c =
      [240 + c / 262144, 128 + c / 4096 % 64, 128 + c / 64 % 64, 128 + c % 64] := by
  unfold utf8EncodeChar
  rw [if_neg (by omega), if_neg (by omega), if_neg h1]

theorem utf8Encode_nil : utf8Encode [] = [] := rfl

theorem utf8Encode_cons (c : Nat) (s : List Nat) :
    utf8Encode (c :: s) = utf8EncodeChar c ++ utf8Encode s := by
  simp [utf8Encode]

theorem utf8Encode_append (s t : List Nat) :
    utf8Encode (s ++ t) = utf8Encode s ++ utf8Encode t := by
  simp [utf8Encode]

theorem utf8ListLen_cons (c : Nat) (s : List Nat) :
    utf8ListLen (c :: s) = utf8Len1 c + utf8ListLen s := by
  simp [utf8ListLen, utf8Encode_cons, utf8EncodeChar_length]

/-- A byte in the interior of a UTF-8 codepoint encoding is a continuation
byte (in `[128, 192)`). -/
theorem utf8EncodeChar_tail_continuation (c : Nat) (i : Nat)
    (h1 : 0 < i) (h2 : i < (utf8EncodeChar c).length) :
    128 ≤ (utf8EncodeChar c).getD i 0 ∧ (utf8EncodeChar c).getD i 0 < 192 := by
  by_cases hc1 : c < 128
  · rw [utf8EncodeChar_eq_of_lt128 c hc1] at h2
    simp at h2; omega
  · by_cases hc2 : c < 2048
    · rw [utf8EncodeChar_eq_of_lt2048 c hc1 hc2] at h2 ⊢
      simp at h2
      interval_cases i
      simp [List.getD]; omega
    · by_cases hc3 : c < 65536
      · rw [utf8EncodeChar_eq_of_lt65536 c hc2 hc3] at h2 ⊢
        simp at h2
        interval_cases i <;> (simp [List.getD]; omega)
      · rw [utf8EncodeChar_eq_of_ge65536 c hc3] at h2 ⊢
        simp at h2
        interval_cases i <;> (simp [List.getD]; omega)

/-- The first byte of a UTF-8 codepoint encoding is never a continuation
byte. -/
theorem utf8EncodeChar_head_not_continuation (c : Nat) :
    (utf8EncodeChar c).getD 0 0 < 128 ∨ 192 ≤ (utf8EncodeChar c).getD 0 0 := by
  by_cases hc1 : c < 128
  · rw [utf8EncodeChar_eq_of_lt128 c hc1]; left; simpa using hc1
  · by_cases hc2 : c < 2048
    · rw [utf8EncodeChar_eq_of_lt2048 c hc1 hc2]; right; simp
    · by_cases hc3 : c < 65536
      · rw [utf8EncodeChar_eq_of_lt65536 c hc2 hc3]; right; simp; omega
      · rw [utf8EncodeChar_eq_of_ge65536 c hc3]; right; simp; omega

/-- Injectivity of the single-codepoint UTF-8 encoding. -/
theorem utf8EncodeChar_inj (c d : Nat) (h : utf8EncodeChar c = utf8EncodeChar d) :
    c = d := by
  unfold utf8EncodeChar at h
  split_ifs at h <;> simp_all <;> omega

/-- The byte length of a codepoint's encoding is determined by its first
byte. -/
def headByteLen (b : Nat) : Nat :=
  if b < 128 then 1 else if b < 224 then 2 else if b < 240 then 3 else 4

theorem utf8Len1_eq_headByteLen (c : Nat) :
    utf8Len1 c = headByteLen ((utf8EncodeChar c).getD 0 0) := by
  by_cases hc1 : c < 128
  · rw [utf8EncodeChar_eq_of_lt128 c hc1]
    simp [utf8Len1, headByteLen, hc1]
  · by_cases hc2 : c < 2048
    · rw [utf8EncodeChar_eq_of_lt2048 c hc1 hc2]
      have hh : ([192 + c / 64, 128 + c % 64] : List Nat).getD 0 0 = 192 + c / 64 := rfl
      rw [hh]
      unfold utf8Len1 headByteLen
      rw [if_neg hc1, if_pos hc2, if_neg (by omega), if_pos (by omega)]
    · by_cases hc3 : c < 65536
      · rw [utf8EncodeChar_eq_of_lt65536 c hc2 hc3]
        have hh : ([224 + c / 4096, 128 + c / 64 % 64, 128 + c % 64] : List Nat).getD 0 0 =
            224 + c / 4096 := rfl
        rw [hh]
        unfold utf8Len1 headByteLen
        rw [if_neg hc1, if_neg hc2, if_pos hc3, if_neg (by omega), if_neg (by omega),
          if_pos (by omega)]
      · rw [utf8EncodeChar_eq_of_ge65536 c hc3]
        have hh : ([240 + c / 262144, 128 + c / 4096 % 64, 128 + c / 64 % 64,
            128 + c % 64] : List Nat).getD 0 0 = 240 + c / 262144 := rfl
        rw [hh]
        unfold utf8Len1 headByteLen
        rw [if_neg hc1, if_neg hc2, if_neg hc3, if_neg (by omega), if_neg (by omega),
          if_neg (by omega)]

theorem getD_zero_append (l l' : List Nat) (hl : l ≠ []) :
    (l ++ l').getD 0 0 = l.getD 0 0 := by
  apply List.getD_append
  cases l
  · exact absurd rfl hl
  · simp

/-- UTF-8 is prefix-deterministic: two codepoint encodings that start the
same byte stream are the same codepoint. -/
theorem utf8EncodeChar_det (c d : Nat) (xs ys : ByteStr)
    (h : utf8EncodeChar c ++ xs = utf8EncodeChar d ++ ys) : c = d ∧ xs = ys := by
  have hhead : (utf8EncodeChar c).getD 0 0 = (utf8EncodeChar d).getD 0 0 := by
    rw [← getD_zero_append (utf8EncodeChar c) xs (utf8EncodeChar_ne_nil c),
      ← getD_zero_append (utf8EncodeChar d) ys (utf8EncodeChar_ne_nil d), h]
  have hlen : (utf8EncodeChar c).length = (utf8EncodeChar d).length := by
    rw [utf8EncodeChar_length, utf8EncodeChar_length, utf8Len1_eq_headByteLen,
      utf8Len1_eq_headByteLen, hhead]
  obtain ⟨h1, h2⟩ := List.append_inj h hlen
  exact ⟨utf8EncodeChar_inj c d h1, h2⟩

/-- If the encoding of `p` is a byte prefix of the encoding of `q`, then `p`
is a codepoint prefix of `q`. -/
theorem utf8Encode_prefix_lift (p : List Nat) :
    ∀ q : List Nat, utf8Encode p <+: utf8Encode q → ∃ r, q = p ++ r := by
  induction p with
  | nil => exact fun q _ => ⟨q, rfl⟩
  | cons c p' ih =>
    intro q h
    cases q with
    | nil =>
      exfalso
      have := h.length_le
      rw [utf8Encode_cons, utf8Encode_nil] at this
      simp at this
      exact utf8EncodeChar_ne_nil c this.1
    | cons d q' =>
      obtain ⟨s, hs⟩ := h
      rw [utf8Encode_cons, utf8Encode_cons, List.append_assoc] at hs
      obtain ⟨hcd, h2⟩ := utf8EncodeChar_det c d _ _ hs
      obtain ⟨r, hr⟩ := ih q' ⟨s, h2⟩
      refine ⟨r, ?_⟩
      rw [hcd, hr]
      rfl

/-- `j` is a codepoint-boundary byte offset of the UTF-8 encoding of `hs`
(including the one-past-the-end offset). -/
def Boundary (hs : List Nat) (j : Nat) : Prop :=
  ∃ k, k ≤ hs.length ∧ j = utf8ListLen (hs.take k)

theorem boundary_zero (hs : List Nat) : Boundary hs 0 :=
  ⟨0, Nat.zero_le _, rfl⟩

/-- A non-boundary byte offset inside the encoding holds a continuation
byte. -/
theorem not_boundary_continuation :
    ∀ (hs : List Nat) (j : Nat), j < (utf8Encode hs).length → ¬ Boundary hs j →
      128 ≤ (utf8Encode hs).getD j 0 ∧ (utf8Encode hs).getD j 0 < 192 := by
  intro hs
  induction hs with
  | nil => intro j hj _; rw [utf8Encode_nil] at hj; simp at hj
  | cons c rest ih =>
    intro j hj hnb
    rw [utf8Encode_cons] at hj ⊢
    by_cases hcase : j < (utf8EncodeChar c).length
    · rcases Nat.eq_zero_or_pos j with hj0 | hjpos
      · exact absurd (hj0 ▸ boundary_zero (c :: rest)) hnb
      · rw [List.getD_append _ _ _ _ hcase]
        exact utf8EncodeChar_tail_continuation c j hjpos hcase
    · push_neg at hcase
      rw [List.getD_append_right _ _ _ _ hcase]
      apply ih
      · rw [List.length_append] at hj; omega
      · intro ⟨k, hk, hkb⟩
        apply hnb
        refine ⟨k + 1, by simpa using hk, ?_⟩
        rw [List.take_succ_cons, utf8ListLen_cons, ← utf8EncodeChar_length c]
        omega

theorem utf8ListLen_pos (s : List Nat) (h : s ≠ []) : 0 < utf8ListLen s := by
  cases s with
  | nil => exact absurd rfl h
  | cons c rest =>
    rw [utf8ListLen_cons]
    have := utf8Len1_pos c
    omega

theorem utf8ListLen_take_drop (hs : List Nat) (k : Nat) :
    utf8ListLen hs = utf8ListLen (hs.take k) + utf8ListLen (hs.drop k) := by
  unfold utf8ListLen
  conv_lhs => rw [← List.take_append_drop k hs]
  rw [utf8Encode_append, List.length_append]

theorem utf8ListLen_take_lt (hs : List Nat) (k : Nat) (h : k < hs.length) :
    utf8ListLen (hs.take k) < utf8ListLen hs := by
  rw [utf8ListLen_take_drop hs k]
  have : hs.drop k ≠ [] := by
    intro hd
    have := congrArg List.length hd
    simp at this
    omega
  have := utf8ListLen_pos _ this
  omega

theorem utf8ListLen_take_le (hs : List Nat) (k : Nat) :
    utf8ListLen (hs.take k) ≤ utf8ListLen hs := by
  rw [utf8ListLen_take_drop hs k]; omega

/-- Dropping the bytes of the first `k` codepoints yields the encoding of
the remaining codepoints. -/
theorem utf8Encode_drop_boundary (hs : List Nat) (k : Nat) :
    (utf8Encode hs).drop (utf8ListLen (hs.take k)) = utf8Encode (hs.drop k) := by
  calc (utf8Encode hs).drop (utf8ListLen (hs.take k))
      = (utf8Encode (hs.take k ++ hs.drop k)).drop (utf8ListLen (hs.take k)) := by
        rw [List.take_append_drop]
    _ = (utf8Encode (hs.take k) ++ utf8Encode (hs.drop k)).drop
          ((utf8Encode (hs.take k)).length) := by rw [utf8Encode_append]; rfl
    _ = utf8Encode (hs.drop k) := List.drop_left _ _

/-- The start of a nonempty encoded-pattern occurrence is a codepoint
boundary. -/
theorem occurrence_start_boundary (hs p : List Nat) (j : Nat)
    (hp : p ≠ []) (hpre : utf8Encode p <+: (utf8Encode hs).drop j)
    (hj : j < (utf8Encode hs).length) : Boundary hs j := by
  by_contra hnb
  obtain ⟨hlo, hhi⟩ := not_boundary_continuation hs j hj hnb
  cases p with
  | nil => exact absurd rfl hp
  | cons c p' =>
    obtain ⟨s, hs'⟩ := hpre
    have hbyte : (utf8Encode hs).getD j 0 = (utf8EncodeChar c).getD 0 0 := by
      have h0 : ((utf8Encode hs).drop j).getD 0 0 = (utf8Encode hs).getD j 0 := by
        have hlt : 0 < ((utf8Encode hs).drop j).length := by
          rw [List.length_drop]; omega
        rw [List.getD_eq_getElem _ _ hlt, List.getElem_drop,
          List.getD_eq_getElem _ _ hj]
        simp
      rw [← h0, ← hs', utf8Encode_cons, List.append_assoc,
        getD_zero_append _ _ (utf8EncodeChar_ne_nil c)]
    rcases utf8EncodeChar_head_not_continuation c with hlt | hge
    · omega
    · omega

/-- The end of an encoded-pattern occurrence that starts on a boundary is a
boundary. -/
theorem occurrence_end_boundary (hs p : List Nat) (k : Nat)
    (hk : k ≤ hs.length) (hpre : utf8Encode p <+: utf8Encode (hs.drop k)) :
    Boundary hs (utf8ListLen (hs.take k) + utf8ListLen p) := by
  obtain ⟨r, hr⟩ := utf8Encode_prefix_lift p (hs.drop k) hpre
  refine ⟨k + p.length, ?_, ?_⟩
  · have := congrArg List.length hr
    rw [List.length_drop, List.length_append] at this
    omega
  · have hsplit : hs = hs.take k ++ (p ++ r) := by
      conv_lhs => rw [← List.take_append_drop k hs]
      rw [hr]
    have hlen : (hs.take k).length = k := by
      rw [List.length_take]
      exact min_eq_left hk
    have htake : hs.take (k + p.length) = hs.take k ++ p := by
      calc hs.take (k + p.length)
          = (hs.take k ++ (p ++ r)).take (k + p.length) := by rw [← hsplit]
        _ = (hs.take k).take (k + p.length) ++
              (p ++ r).take (k + p.length - (hs.take k).length) := by
            rw [List.take_append_eq_append_take]
        _ = hs.take k ++ (p ++ r).take p.length := by
            rw [List.take_of_length_le (by omega), hlen]
            congr 2
            omega
        _ = hs.take k ++ p := by
            congr 1
            exact List.take_left p r
    rw [htake]
    simp only [utf8ListLen]
    rw [utf8Encode_append, List.length_append]

/-- Number of codepoints of `hs` whose encoding starts strictly before byte
offset `b`: the codepoint index a byte offset corresponds to. -/
def codepointsBefore : List Nat → Nat → Nat
  | [], _ => 0
  | c :: rest, b => if b = 0 then 0 else 1 + codepointsBefore rest (b - utf8Len1 c)

theorem codepointsBefore_boundary :
    ∀ (hs : List Nat) (k : Nat), codepointsBefore hs (utf8ListLen (hs.take k)) = min k hs.length := by
  intro hs
  induction hs with
  | nil => intro k; simp [codepointsBefore, utf8ListLen, utf8Encode_nil]
  | cons c rest ih =>
    intro k
    cases k with
    | zero => simp [codepointsBefore, utf8ListLen, utf8Encode_nil]
    | succ k' =>
      rw [List.take_succ_cons, utf8ListLen_cons]
      have hpos := utf8Len1_pos c
      unfold codepointsBefore
      rw [if_neg (by omega)]
      have : utf8Len1 c + utf8ListLen (rest.take k') - utf8Len1 c =
          utf8ListLen (rest.take k') := by omega
      rw [this, ih k']
      simp only [List.length_cons]
      omega

/-- The sentinel `usize::MAX` used by `get_byte_to_code_point` for byte
offsets that fall inside a multi-byte codepoint. -/
def usizeMax : Nat := 18446744073709551615

/-- Loop body of `PyAhoCorasick::get_byte_to_code_point` (src/lib.rs lines
77-80): for each character, record its codepoint index at its byte offset
and remember the running maximum codepoint index. -/
def byteToCodePointAux : List Nat → List Nat → Nat → Nat → Nat → List Nat × Nat
  | [], tbl, _, _, maxCp => (tbl, maxCp)
  | c :: rest, tbl, byteOff, cpOff, _ =>
      byteToCodePointAux rest (tbl.set byteOff cpOff) (byteOff + utf8Len1 c) (cpOff + 1) cpOff

/-- `PyAhoCorasick::get_byte_to_code_point` (src/lib.rs lines 72-87): map
each byte offset of the UTF-8 haystack to its codepoint index, sentinel
`usize::MAX` elsewhere, with the one-past-the-end entry patched to
`max_codepoint + 1` for nonempty haystacks. -/
def getByteToCodePoint (hs : List Nat) : List Nat :=
  let n := utf8ListLen hs
  let r := byteToCodePointAux hs (List.replicate (n + 1) usizeMax) 0 0 0
  if hs.isEmpty then r.1 else r.1.set n (r.2 + 1)

theorem getD_set_ne (l : List Nat) (i j a d : Nat) (h : i ≠ j) :
    (l.set i a).getD j d = l.getD j d := by
  by_cases hj : j < l.length
  · rw [List.getD_eq_getElem _ _ (by rw [List.length_set]; exact hj),
      List.getD_eq_getElem _ _ hj]
    exact List.getElem_set_ne h _
  · rw [List.getD_eq_default _ _ (by rw [List.length_set]; omega),
      List.getD_eq_default _ _ (by omega)]

theorem getD_set_self (l : List Nat) (i a d : Nat) (h : i < l.length) :
    (l.set i a).getD i d = a := by
  rw [List.getD_eq_getElem _ _ (by rw [List.length_set]; exact h)]
  exact List.getElem_set_self _

theorem byteToCodePointAux_length :
    ∀ (hs tbl : List Nat) (off cp m : Nat),
      (byteToCodePointAux hs tbl off cp m).1.length = tbl.length := by
  intro hs
  induction hs with
  | nil => intro tbl off cp m; rfl
  | cons c rest ih =>
    intro tbl off cp m
    rw [byteToCodePointAux, ih, List.length_set]

theorem byteToCodePointAux_preserve :
    ∀ (hs tbl : List Nat) (off cp m j d : Nat), j < off →
      (byteToCodePointAux hs tbl off cp m).1.getD j d = tbl.getD j d := by
  intro hs
  induction hs with
  | nil => intro tbl off cp m j d _; rfl
  | cons c rest ih =>
    intro tbl off cp m j d hj
    rw [byteToCodePointAux]
    have h1 := utf8Len1_pos c
    rw [ih _ _ _ _ _ _ (by omega)]
    exact getD_set_ne tbl off j cp d (by omega)

theorem byteToCodePointAux_hit :
    ∀ (hs tbl : List Nat) (off cp m k d : Nat), k < hs.length →
      off + utf8ListLen (hs.take k) < tbl.length →
      (byteToCodePointAux hs tbl off cp m).1.getD (off + utf8ListLen (hs.take k)) d =
        cp + k := by
  intro hs
  induction hs with
  | nil => intro tbl off cp m k d hk; simp at hk
  | cons c rest ih =>
    intro tbl off cp m k d hk hb
    rw [byteToCodePointAux]
    cases k with
    | zero =>
      simp only [List.take_zero] at hb ⊢
      have hz : utf8ListLen ([] : List Nat) = 0 := rfl
      rw [hz] at hb ⊢
      have h1 := utf8Len1_pos c
      rw [byteToCodePointAux_preserve rest _ _ _ _ _ _ (by omega)]
      exact getD_set_self tbl off cp d (by omega)
    | succ k' =>
      rw [List.take_succ_cons, utf8ListLen_cons] at hb ⊢
      have heq : off + (utf8Len1 c + utf8ListLen (rest.take k')) =
          (off + utf8Len1 c) + utf8ListLen (rest.take k') := by omega
      rw [heq] at hb ⊢
      rw [ih _ _ _ _ _ _ (by simpa using hk) (by rw [List.length_set]; exact hb)]
      omega

theorem byteToCodePointAux_maxCp :
    ∀ (hs tbl : List Nat) (off cp m : Nat), hs ≠ [] →
      (byteToCodePointAux hs tbl off cp m).2 = cp + hs.length - 1 := by
  intro hs
  induction hs with
  | nil => intro tbl off cp m h; exact absurd rfl h
  | cons c rest ih =>
    intro tbl off cp m _
    rw [byteToCodePointAux]
    cases hr : rest with
    | nil => rfl
    | cons d rest' =>
      rw [← hr, ih _ _ _ _ (by rw [hr]; exact List.cons_ne_nil d rest')]
      simp only [List.length_cons]
      omega

theorem getByteToCodePoint_length (hs : List Nat) :
    (getByteToCodePoint hs).length = utf8ListLen hs + 1 := by
  unfold getByteToCodePoint
  by_cases h : hs.isEmpty
  · rw [if_pos h, byteToCodePointAux_length, List.length_replicate]
  · rw [if_neg h, List.length_set, byteToCodePointAux_length, List.length_replicate]

/-- Interior boundary offsets of the table hold the codepoint index. -/
theorem getByteToCodePoint_boundary (hs : List Nat) (k : Nat) (hk : k < hs.length) :
    (getByteToCodePoint hs).getD (utf8ListLen (hs.take k)) 0 = k := by
  unfold getByteToCodePoint
  have hne : hs.isEmpty = false := by
    cases hs
    · simp at hk
    · rfl
  rw [if_neg (by rw [hne]; exact Bool.false_ne_true)]
  have hlt := utf8ListLen_take_lt hs k hk
  rw [getD_set_ne _ _ _ _ _ (by omega)]
  have := byteToCodePointAux_hit hs (List.replicate (utf8ListLen hs + 1) usizeMax)
    0 0 0 k 0 hk (by rw [List.length_replicate]; omega)
  simpa using this

/-- The one-past-the-end entry of the table holds the codepoint count. -/
theorem getByteToCodePoint_end (hs : List Nat) (hne : hs ≠ []) :
    (getByteToCodePoint hs).getD (utf8ListLen hs) 0 = hs.length := by
  unfold getByteToCodePoint
  have hie : hs.isEmpty = false := by
    cases hs with
    | nil => exact absurd rfl hne
    | cons a t => rfl
  rw [if_neg (by rw [hie]; exact Bool.false_ne_true)]
  rw [byteToCodePointAux_maxCp hs _ 0 0 0 hne]
  rw [getD_set_self]
  · have hpos : 0 < hs.length := List.length_pos.mpr hne
    omega
  · rw [byteToCodePointAux_length, List.length_replicate]
    omega

/-- For the empty haystack the table is the single sentinel entry. -/
theorem getByteToCodePoint_nil : getByteToCodePoint [] = [usizeMax] := rfl

/-- Python equivalent of the crate's `MatchKind` (src/lib.rs `PyMatchKind`). -/
inductive MatchKind where
  | Standard
  | LeftmostFirst
  | LeftmostLongest
deriving DecidableEq

/-- Python equivalent of the crate's `AhoCorasickKind` (src/lib.rs
`Implementation`). -/
inductive Implementation where
  | NoncontiguousNFA
  | ContiguousNFA
  | DFA
deriving DecidableEq

/-- The Python-visible error taxonomy raised by the binding layer. -/
inductive Err where
  | emptyPattern
  | unsupportedOverlapping
deriving DecidableEq

/-- Modelled from the spec (§3 Trie Node, §4.2): `s` is a trie node of the
automaton built from `ps` exactly when `s` is the empty prefix or a prefix
of some pattern. -/
def isNode (ps : List ByteStr) (s : ByteStr) : Bool :=
  s.isEmpty || ps.any (fun p => s.isPrefixOf p)

theorem isNode_iff (ps : List ByteStr) (s : ByteStr) :
    isNode ps s = true ↔ s = [] ∨ ∃ p ∈ ps, s <+: p := by
  simp [isNode, List.isEmpty_iff, List.any_eq_true, List.isPrefixOf_iff_prefix]

theorem isNode_nil (ps : List ByteStr) : isNode ps [] = true := rfl

theorem isNode_of_append (ps : List ByteStr) (x : ByteStr) (b : Nat)
    (h : isNode ps (x ++ [b]) = true) : isNode ps x = true := by
  rw [isNode_iff] at h ⊢
  rcases h with h | ⟨p, hp, hpre⟩
  · exact absurd (congrArg List.length h) (by simp)
  · exact Or.inr ⟨p, hp, (List.prefix_append x [b]).trans hpre⟩

/-- Modelled from the spec (glossary "Failure link"): the longest suffix of
`t` that is a trie node.  Applied to the tail of a node it computes the
failure link. -/
def longestNodeSuffix (ps : List ByteStr) : ByteStr → ByteStr
  | [] => []
  | b :: t => if isNode ps (b :: t) then b :: t else longestNodeSuffix ps t

theorem longestNodeSuffix_suffix (ps : List ByteStr) :
    ∀ t : ByteStr, longestNodeSuffix ps t <:+ t := by
  intro t
  induction t with
  | nil => exact List.suffix_rfl
  | cons b t' ih =>
    rw [longestNodeSuffix]
    by_cases h : isNode ps (b :: t') = true
    · rw [if_pos h]
    · rw [if_neg h]
      exact ih.trans (List.suffix_cons b t')

theorem longestNodeSuffix_length_le (ps : List ByteStr) (t : ByteStr) :
    (longestNodeSuffix ps t).length ≤ t.length :=
  (longestNodeSuffix_suffix ps t).length_le

theorem longestNodeSuffix_isNode (ps : List ByteStr) :
    ∀ t : ByteStr, isNode ps (longestNodeSuffix ps t) = true := by
  intro t
  induction t with
  | nil => exact isNode_nil ps
  | cons b t' ih =>
    rw [longestNodeSuffix]
    by_cases h : isNode ps (b :: t') = true
    · rw [if_pos h]; exact h
    · rw [if_neg h]; exact ih

theorem longestNodeSuffix_longest (ps : List ByteStr) :
    ∀ (t y : ByteStr), y <:+ t → isNode ps y = true → y <:+ longestNodeSuffix ps t := by
  intro t
  induction t with
  | nil => intro y hy _; rw [List.suffix_nil] at hy; rw [hy]; exact List.suffix_rfl
  | cons b t' ih =>
    intro y hy hn
    rw [longestNodeSuffix]
    by_cases h : isNode ps (b :: t') = true
    · rw [if_pos h]; exact hy
    · rw [if_neg h]
      rcases List.suffix_cons_iff.mp hy with heq | hy'
      · exact absurd (heq ▸ hn) h
      · exact ih y hy' hn

/-- Uniqueness: a node suffix of maximal length is the longest node
suffix. -/
theorem longestNodeSuffix_eq (ps : List ByteStr) (t y : ByteStr)
    (hy : y <:+ t) (hn : isNode ps y = true)
    (hmax : ∀ z : ByteStr, z <:+ t → isNode ps z = true → z.length ≤ y.length) :
    longestNodeSuffix ps t = y := by
  have h1 : y <:+ longestNodeSuffix ps t := longestNodeSuffix_longest ps t y hy hn
  have h2 : (longestNodeSuffix ps t).length ≤ y.length :=
    hmax _ (longestNodeSuffix_suffix ps t) (longestNodeSuffix_isNode ps t)
  exact (h1.eq_of_length_le h2).symm

/-- Modelled from the spec (§4.2): the transition function of the
automaton, with an explicit fuel bound on the number of failure links
followed.  On byte `b` in state `s`, follow the trie edge if it exists,
otherwise follow failure links (longest proper node suffix) until an edge
is found, falling back to the root. -/
def nfaNextAux (ps : List ByteStr) : Nat → ByteStr → Nat → ByteStr
  | 0, s, b => if isNode ps (s ++ [b]) then s ++ [b] else []
  | n + 1, s, b =>
      if isNode ps (s ++ [b]) then s ++ [b]
      else
        match s with
        | [] => []
        | _ :: t => nfaNextAux ps n (longestNodeSuffix ps t) b

/-- The transition function: the failure chain from `s` has length at most
`s.length`. -/
def nfaNext (ps : List ByteStr) (s : ByteStr) (b : Nat) : ByteStr :=
  nfaNextAux ps s.length s b

theorem nfaNextAux_fuel_irrel (ps : List ByteStr) :
    ∀ (n m : Nat) (s : ByteStr) (b : Nat), s.length ≤ n → s.length ≤ m →
      nfaNextAux ps n s b = nfaNextAux ps m s b := by
  intro n
  induction n with
  | zero =>
    intro m s b hn _
    have hnil : s = [] := List.eq_nil_of_length_eq_zero (by omega)
    subst hnil
    cases m with
    | zero => rfl
    | succ m => rfl
  | succ n ih =>
    intro m s b hn hm
    cases s with
    | nil =>
      cases m with
      | zero => rfl
      | succ m => rfl
    | cons c t =>
      cases m with
      | zero => simp at hm
      | succ m =>
        rw [nfaNextAux, nfaNextAux]
        by_cases h : isNode ps (c :: t ++ [b]) = true
        · rw [if_pos h, if_pos h]
        · rw [if_neg h, if_neg h]
          simp only [List.length_cons] at hn hm
          have hl := longestNodeSuffix_length_le ps t
          exact ih m (longestNodeSuffix ps t) b (by omega) (by omega)

/-- The defining unfolding of `nfaNext`: trie edge if present, otherwise
recurse through the failure link. -/
theorem nfaNext_unfold (ps : List ByteStr) (s : ByteStr) (b : Nat) :
    nfaNext ps s b =
      if isNode ps (s ++ [b]) then s ++ [b]
      else
        match s with
        | [] => []
        | _ :: t => nfaNext ps (longestNodeSuffix ps t) b := by
  cases s with
  | nil =>
    show nfaNextAux ps 0 [] b = _
    rw [nfaNextAux]
  | cons c t =>
    show nfaNextAux ps (t.length + 1) (c :: t) b = _
    rw [nfaNextAux]
    by_cases h : isNode ps (c :: t ++ [b]) = true
    · rw [if_pos h, if_pos h]
    · rw [if_neg h, if_neg h]
      exact nfaNextAux_fuel_irrel ps t.length (longestNodeSuffix ps t).length
        (longestNodeSuffix ps t) b (longestNodeSuffix_length_le ps t) (le_refl _)

theorem nfaNextAux_isNode (ps : List ByteStr) :
    ∀ (n : Nat) (s : ByteStr) (b : Nat), s.length ≤ n →
      isNode ps (nfaNext ps s b) = true := by
  intro n
  induction n with
  | zero =>
    intro s b hs
    have hnil : s = [] := List.eq_nil_of_length_eq_zero (by omega)
    subst hnil
    rw [nfaNext_unfold]
    by_cases h : isNode ps ([] ++ [b]) = true
    · rw [if_pos h]; exact h
    · rw [if_neg h]; exact isNode_nil ps
  | succ n ih =>
    intro s b hs
    rw [nfaNext_unfold]
    by_cases h : isNode ps (s ++ [b]) = true
    · rw [if_pos h]; exact h
    · rw [if_neg h]
      cases s with
      | nil => exact isNode_nil ps
      | cons c t =>
        apply ih
        have := longestNodeSuffix_length_le ps t
        simp only [List.length_cons] at hs
        omega

theorem nfaNext_isNode (ps : List ByteStr) (s : ByteStr) (b : Nat) :
    isNode ps (nfaNext ps s b) = true :=
  nfaNextAux_isNode ps s.length s b (le_refl _)

theorem suffix_append_one (x t : ByteStr) (b : Nat) (h : x <:+ t) :
    x ++ [b] <:+ t ++ [b] := by
  obtain ⟨u, hu⟩ := h
  exact ⟨u, by rw [← List.append_assoc, hu]⟩

/-- A suffix of `t ++ [b]` is empty or ends in `b` above a suffix of `t`. -/
theorem suffix_snoc_cases (y t : ByteStr) (b : Nat) (h : y <:+ t ++ [b]) :
    y = [] ∨ ∃ x : ByteStr, x <:+ t ∧ y = x ++ [b] := by
  rcases List.eq_nil_or_concat y with hy | ⟨x, a, hx⟩
  · exact Or.inl hy
  · right
    subst hx
    obtain ⟨u, hu⟩ := h
    rw [List.concat_eq_append, ← List.append_assoc] at hu
    obtain ⟨h1, h2⟩ := List.append_inj' hu (by simp)
    have ha : a = b := by simpa using h2
    exact ⟨x, ⟨u, h1⟩, by rw [List.concat_eq_append, ha]⟩

/-- The central automaton lemma: from the longest node suffix of the text
read so far, the transition function reaches the longest node suffix of the
text extended by one byte.  This is the classical correctness argument for
the failure-link construction described in spec §4.2. -/
theorem nfaNextAux_longestNodeSuffix (ps : List ByteStr) :
    ∀ (n : Nat) (t : ByteStr) (b : Nat), t.length ≤ n →
      nfaNext ps (longestNodeSuffix ps t) b = longestNodeSuffix ps (t ++ [b]) := by
  intro n
  induction n with
  | zero =>
    intro t b ht
    have hnil : t = [] := List.eq_nil_of_length_eq_zero (by omega)
    subst hnil
    rw [nfaNext_unfold]
    by_cases h : isNode ps (longestNodeSuffix ps [] ++ [b]) = true
    · rw [if_pos h]
      have hb : isNode ps ([b] : ByteStr) = true := by simpa using h
      simp only [List.nil_append, longestNodeSuffix]
      rw [if_pos hb]
    · rw [if_neg h]
      have hb : ¬ isNode ps ([b] : ByteStr) = true := by simpa using h
      simp only [List.nil_append, longestNodeSuffix]
      rw [if_neg hb]
  | succ n ih =>
    intro t b ht
    rw [nfaNext_unfold]
    by_cases h : isNode ps (longestNodeSuffix ps t ++ [b]) = true
    · rw [if_pos h]
      refine (longestNodeSuffix_eq ps (t ++ [b]) _ ?_ h ?_).symm
      · exact suffix_append_one _ t b (longestNodeSuffix_suffix ps t)
      · intro z hz hzn
        rcases suffix_snoc_cases z t b hz with hz0 | ⟨x, hxs, hxe⟩
        · rw [hz0]; simp
        · subst hxe
          have hx : x <:+ longestNodeSuffix ps t :=
            longestNodeSuffix_longest ps t x hxs (isNode_of_append ps x b hzn)
          have := hx.length_le
          simp only [List.length_append, List.length_cons]
          simp only [List.length_nil]
          omega
    · rw [if_neg h]
      cases hcase : longestNodeSuffix ps t with
      | nil =>
        refine (longestNodeSuffix_eq ps (t ++ [b]) [] List.nil_suffix (isNode_nil ps) ?_).symm
        intro z hz hzn
        rcases suffix_snoc_cases z t b hz with hz0 | ⟨x, hxs, hxe⟩
        · rw [hz0]
        · subst hxe
          have hx : x <:+ longestNodeSuffix ps t :=
            longestNodeSuffix_longest ps t x hxs (isNode_of_append ps x b hzn)
          rw [hcase, List.suffix_nil] at hx
          subst hx
          rw [hcase] at h
          exact absurd hzn h
      | cons c t0 =>
        have htail : t0.length ≤ n := by
          have h1 : (longestNodeSuffix ps t).length ≤ t.length :=
            longestNodeSuffix_length_le ps t
          rw [hcase] at h1
          simp only [List.length_cons] at h1
          omega
        show nfaNext ps (longestNodeSuffix ps t0) b = longestNodeSuffix ps (t ++ [b])
        rw [ih t0 b htail]
        refine (longestNodeSuffix_eq ps (t ++ [b]) _ ?_
          (longestNodeSuffix_isNode ps (t0 ++ [b])) ?_).symm
        · have h1 : t0 <:+ t := by
            have h2 : t0 <:+ longestNodeSuffix ps t := by
              rw [hcase]; exact (List.tail_suffix (c :: t0))
            exact h2.trans (longestNodeSuffix_suffix ps t)
          exact (longestNodeSuffix_suffix ps (t0 ++ [b])).trans
            (suffix_append_one t0 t b h1)
        · intro z hz hzn
          rcases suffix_snoc_cases z t b hz with hz0 | ⟨x, hxs, hxe⟩
          · rw [hz0]; simp
          · subst hxe
            have hx : x <:+ longestNodeSuffix ps t :=
              longestNodeSuffix_longest ps t x hxs (isNode_of_append ps x b hzn)
            rw [hcase] at hx
            rcases List.suffix_cons_iff.mp hx with hxeq | hxtail
            · exfalso
              rw [hxeq, ← hcase] at hzn
              exact h hzn
            · have : x ++ [b] <:+ longestNodeSuffix ps (t0 ++ [b]) :=
                longestNodeSuffix_longest ps (t0 ++ [b]) (x ++ [b])
                  (suffix_append_one x t0 b hxtail) hzn
              exact this.length_le

theorem nfaNext_longestNodeSuffix (ps : List ByteStr) (t : ByteStr) (b : Nat) :
    nfaNext ps (longestNodeSuffix ps t) b = longestNodeSuffix ps (t ++ [b]) :=
  nfaNextAux_longestNodeSuffix ps t.length t b (le_refl _)

/-- Byte substring `h[a..b]` (start inclusive, end exclusive). -/
def substring (h : ByteStr) (a b : Nat) : ByteStr := (h.drop a).take (b - a)

/-- Modelled from the spec (§4.3 overlapping scan, glossary "Terminal
pattern id set"): the pattern ids whose pattern ends at state `s`, the
state's own terminal set first, then those of its failure-link chain, i.e.
all patterns that are suffixes of `s`, longest first, ids ascending within
a node. -/
def terminalChain (ps : List ByteStr) (s : ByteStr) : List Nat :=
  s.tails.flatMap (fun t => (List.range ps.length).filter (fun i => decide (ps.getD i [] = t)))

theorem mem_terminalChain (ps : List ByteStr) (s : ByteStr) (i : Nat) :
    i ∈ terminalChain ps s ↔ i < ps.length ∧ ps.getD i [] <:+ s := by
  simp only [terminalChain, List.mem_flatMap, List.mem_filter, List.mem_range,
    List.mem_tails, decide_eq_true_eq]
  constructor
  · rintro ⟨t, hts, hi, hpt⟩
    exact ⟨hi, hpt ▸ hts⟩
  · rintro ⟨hi, hst⟩
    exact ⟨ps.getD i [], hst, hi, rfl⟩

/-- Modelled from the spec (§4.3): the overlapping scan.  After each byte
the automaton state advances and a match is emitted, ending at the current
position, for every terminal pattern id of the state and its failure
chain. -/
def overlappingScanFrom (ps : List ByteStr) (next : ByteStr → Nat → ByteStr)
    (s : ByteStr) (e : Nat) : ByteStr → List (Nat × Nat × Nat)
  | [] => []
  | b :: rest =>
      let s2 := next s b
      (terminalChain ps s2).map (fun i => (i, e + 1 - (ps.getD i []).length, e + 1))
        ++ overlappingScanFrom ps next s2 (e + 1) rest

/-- Modelled from the spec (§4.3 non-overlapping scan, standard kind): walk
byte by byte; at the first state carrying terminal ids emit the
highest-priority match (the state's own terminal, longest suffix, lowest
id) and resume past the end of the match with the automaton reset. -/
def stdScanFrom (ps : List ByteStr) (next : ByteStr → Nat → ByteStr)
    (s : ByteStr) (e : Nat) : ByteStr → List (Nat × Nat × Nat)
  | [] => []
  | b :: rest =>
      let s2 := next s b
      match terminalChain ps s2 with
      | [] => stdScanFrom ps next s2 (e + 1) rest
      | i :: _ =>
          (i, e + 1 - (ps.getD i []).length, e + 1) :: stdScanFrom ps next [] (e + 1) rest

/-- All candidate occurrences `(pattern id, start)` of nonempty patterns in
`h` with start position at least `i`, ordered by start then id. -/
def occCandidates (ps : List ByteStr) (h : ByteStr) (i : Nat) : List (Nat × Nat) :=
  (List.range (h.length + 1)).flatMap (fun st =>
    if st < i then []
    else (List.range ps.length).filterMap (fun pid =>
      let p := ps.getD pid []
      if p ≠ [] ∧ st + p.length ≤ h.length ∧ substring h st (st + p.length) = p
      then some (pid, st) else none))

/-- Modelled from the spec (§4.2 match kinds): among the candidates at the
leftmost start position, `leftmost-first` picks the earliest-registered
pattern and `leftmost-longest` the longest pattern (earliest registered on
ties). -/
def pickLeftmost (ps : List ByteStr) (kind : MatchKind) (cands : List (Nat × Nat)) :
    Option (Nat × Nat) :=
  match cands with
  | [] => none
  | c :: rest =>
    match kind with
    | MatchKind.LeftmostFirst => some c
    | _ =>
      some (((c :: rest).filter (fun x => decide (x.2 = c.2))).foldl
        (fun best x =>
          if (ps.getD best.1 []).length < (ps.getD x.1 []).length then x else best) c)

/-- Modelled from the spec (§4.3): the non-overlapping scan for the two
leftmost match kinds: repeatedly emit the winning match at the leftmost
start position and resume past its end.  The fuel argument bounds the
number of emitted matches. -/
def leftmostScanAux (ps : List ByteStr) (kind : MatchKind) (h : ByteStr) :
    Nat → Nat → List (Nat × Nat × Nat)
  | _, 0 => []
  | i, fuel + 1 =>
    match pickLeftmost ps kind (occCandidates ps h i) with
    | none => []
    | some (pid, st) =>
      (pid, st, st + (ps.getD pid []).length) ::
        leftmostScanAux ps kind h (st + (ps.getD pid []).length) fuel

def leftmostScan (ps : List ByteStr) (kind : MatchKind) (h : ByteStr) :
    List (Nat × Nat × Nat) :=
  leftmostScanAux ps kind h 0 (h.length + 1)

/-- Modelled from the spec (§4.3): the non-overlapping scan, dispatching on
the match kind. -/
def nonOverlappingScan (ps : List ByteStr) (kind : MatchKind)
    (next : ByteStr → Nat → ByteStr) (h : ByteStr) : List (Nat × Nat × Nat) :=
  match kind with
  | MatchKind.Standard => stdScanFrom ps next [] 0 h
  | _ => leftmostScan ps kind h

/-- Embedded from `get_matches` (src/lib.rs lines 41-67), with the
overlapping-iterator refusal modelled from the spec (§4.2/§4.3: overlapping
enumeration is only defined for the `standard` kind and must fail with
`UnsupportedOperationError` otherwise, surfaced by `match_error_to_pyerror`). -/
def getMatches (ps : List ByteStr) (kind : MatchKind)
    (next : ByteStr → Nat → ByteStr) (h : ByteStr) (overlapping : Bool) :
    Except Err (List (Nat × Nat × Nat)) :=
  if overlapping then
    match kind with
    | MatchKind.Standard => Except.ok (overlappingScanFrom ps next [] 0 h)
    | _ => Except.error Err.unsupportedOverlapping
  else
    Except.ok (nonOverlappingScan ps kind next h)

/-- All trie nodes of the automaton for `ps`: the root plus every nonempty
pattern prefix. -/
def allNodes (ps : List ByteStr) : List ByteStr :=
  ([] :: ps.flatMap (fun p => (List.range p.length).map (fun k => p.take (k + 1)))).dedup

/-- Modelled from the spec (§4.2): the compiled (contiguous/DFA)
representation precomputes, for every (node, byte) pair, the transition
obtained by following failure links until a defined transition is found. -/
def dfaTable (ps : List ByteStr) : List (ByteStr × List ByteStr) :=
  (allNodes ps).map (fun s => (s, (List.range 256).map (fun b => nfaNext ps s b)))

/-- Transition lookup in the compiled table. -/
def tableNext (ps : List ByteStr) (s : ByteStr) (b : Nat) : ByteStr :=
  match (dfaTable ps).find? (fun e => decide (e.1 = s)) with
  | some e => e.2.getD b []
  | none => []

/-- Modelled from the spec (§4.2): the noncontiguous NFA resolves failure
links at scan time; the contiguous NFA and the DFA both use the
precompiled transition table. -/
def nextFor (ps : List ByteStr) (impl : Implementation) : ByteStr → Nat → ByteStr :=
  match impl with
  | Implementation.NoncontiguousNFA => nfaNext ps
  | Implementation.ContiguousNFA => tableNext ps
  | Implementation.DFA => tableNext ps

/-- A match record `(pattern id, start, end)` is a genuine occurrence of
its pattern in the haystack at its reported offsets. -/
def IsOccurrence (ps : List ByteStr) (h : ByteStr) (m : Nat × Nat × Nat) : Prop :=
  m.1 < ps.length ∧ m.2.2 ≤ h.length ∧
    m.2.1 + (ps.getD m.1 []).length = m.2.2 ∧
    substring h m.2.1 m.2.2 = ps.getD m.1 []

theorem getD_mem_of_lt (ps : List ByteStr) (i : Nat) (h : i < ps.length) :
    ps.getD i [] ∈ ps := by
  rw [List.getD_eq_getElem _ _ h]
  exact List.getElem_mem h

theorem pattern_isNode (ps : List ByteStr) (p : ByteStr) (hp : p ∈ ps) :
    isNode ps p = true := by
  rw [isNode_iff]
  exact Or.inr ⟨p, hp, List.prefix_rfl⟩

/-- A pattern is a suffix of the longest node suffix of `t` exactly when it
is a suffix of `t`: the failure chain of the reached state carries exactly
the patterns ending at the current position. -/
theorem pattern_suffix_longestNodeSuffix (ps : List ByteStr) (t p : ByteStr)
    (hp : p ∈ ps) : p <:+ longestNodeSuffix ps t ↔ p <:+ t := by
  constructor
  · intro h; exact h.trans (longestNodeSuffix_suffix ps t)
  · intro h; exact longestNodeSuffix_longest ps t p h (pattern_isNode ps p hp)

theorem mem_allNodes (ps : List ByteStr) (s : ByteStr) :
    s ∈ allNodes ps ↔ isNode ps s = true := by
  rw [allNodes, List.mem_dedup, isNode_iff]
  simp only [List.mem_cons, List.mem_flatMap, List.mem_map, List.mem_range]
  constructor
  · rintro (h | ⟨p, hp, k, hk, hs⟩)
    · exact Or.inl h
    · right
      exact ⟨p, hp, hs ▸ List.take_prefix (k + 1) p⟩
  · rintro (h | ⟨p, hp, hpre⟩)
    · exact Or.inl h
    · cases hse : s with
      | nil => exact Or.inl rfl
      | cons a s' =>
        right
        have hlen : s.length ≤ p.length := hpre.length_le
        have hpos : 1 ≤ s.length := by rw [hse]; simp
        refine ⟨p, hp, s.length - 1, by omega, ?_⟩
        have h1 : s.length - 1 + 1 = s.length := by omega
        rw [h1, ← List.prefix_iff_eq_take.mp hpre, hse]

theorem tableNext_eq_nfaNext (ps : List ByteStr) (s : ByteStr) (b : Nat)
    (hs : isNode ps s = true) (hb : b < 256) :
    tableNext ps s b = nfaNext ps s b := by
  have hmem : s ∈ allNodes ps := (mem_allNodes ps s).mpr hs
  unfold tableNext
  cases hfe : (dfaTable ps).find? (fun e => decide (e.1 = s)) with
  | none =>
    exfalso
    have hfind : ((dfaTable ps).find? (fun e => decide (e.1 = s))).isSome = true := by
      rw [List.find?_isSome]
      refine ⟨(s, (List.range 256).map (fun b => nfaNext ps s b)), ?_, by simp⟩
      rw [dfaTable]
      exact List.mem_map.mpr ⟨s, hmem, rfl⟩
    rw [hfe] at hfind
    simp at hfind
  | some e =>
    have he1 : e.1 = s := by simpa using List.find?_some hfe
    have hmem2 := List.mem_of_find?_eq_some hfe
    rw [dfaTable] at hmem2
    obtain ⟨s', hsmem, hs'⟩ := List.mem_map.mp hmem2
    rw [← hs'] at he1 ⊢
    simp only at he1
    subst he1
    show ((List.range 256).map (fun b => nfaNext ps s' b)).getD b [] = nfaNext ps s' b
    have hlt : b < ((List.range 256).map (fun b => nfaNext ps s' b)).length := by
      simp [hb]
    rw [List.getD_eq_getElem _ _ hlt, List.getElem_map]
    congr 1
    exact List.getElem_range b _

theorem overlappingScanFrom_congr (ps : List ByteStr) (n2 : ByteStr → Nat → ByteStr)
    (hagree : ∀ s b, isNode ps s = true → b < 256 → nfaNext ps s b = n2 s b) :
    ∀ (rest s : ByteStr) (e : Nat), isNode ps s = true → (∀ b ∈ rest, b < 256) →
      overlappingScanFrom ps (nfaNext ps) s e rest =
        overlappingScanFrom ps n2 s e rest := by
  intro rest
  induction rest with
  | nil => intro s e _ _; rfl
  | cons b rest' ih =>
    intro s e hs hb
    simp only [overlappingScanFrom]
    have hb0 : b < 256 := hb b (List.mem_cons_self b rest')
    rw [← hagree s b hs hb0]
    rw [ih (nfaNext ps s b) (e + 1) (nfaNext_isNode ps s b)
      (fun x hx => hb x (List.mem_cons_of_mem b hx))]

theorem stdScanFrom_congr (ps : List ByteStr) (n2 : ByteStr → Nat → ByteStr)
    (hagree : ∀ s b, isNode ps s = true → b < 256 → nfaNext ps s b = n2 s b) :
    ∀ (rest s : ByteStr) (e : Nat), isNode ps s = true → (∀ b ∈ rest, b < 256) →
      stdScanFrom ps (nfaNext ps) s e rest = stdScanFrom ps n2 s e rest := by
  intro rest
  induction rest with
  | nil => intro s e _ _; rfl
  | cons b rest' ih =>
    intro s e hs hb
    simp only [stdScanFrom]
    have hb0 : b < 256 := hb b (List.mem_cons_self b rest')
    rw [← hagree s b hs hb0]
    have hrest : ∀ x ∈ rest', x < 256 := fun x hx => hb x (List.mem_cons_of_mem b hx)
    cases hchain : terminalChain ps (nfaNext ps s b) with
    | nil =>
      rw [ih (nfaNext ps s b) (e + 1) (nfaNext_isNode ps s b) hrest]
    | cons i rest2 =>
      rw [ih [] (e + 1) (isNode_nil ps) hrest]

/-- Scans with the compiled transition table coincide with scans resolving
failure links at runtime. -/
theorem getMatches_table_eq (ps : List ByteStr) (kind : MatchKind) (h : ByteStr)
    (ov : Bool) (hb : ∀ b ∈ h, b < 256) :
    getMatches ps kind (tableNext ps) h ov = getMatches ps kind (nfaNext ps) h ov := by
  have hagree : ∀ s b, isNode ps s = true → b < 256 → nfaNext ps s b = tableNext ps s b :=
    fun s b hs hb0 => (tableNext_eq_nfaNext ps s b hs hb0).symm
  cases ov with
  | true =>
    cases kind with
    | Standard =>
      show Except.ok (overlappingScanFrom ps (tableNext ps) [] 0 h) =
        Except.ok (overlappingScanFrom ps (nfaNext ps) [] 0 h)
      rw [overlappingScanFrom_congr ps (tableNext ps) hagree h [] 0 (isNode_nil ps) hb]
    | LeftmostFirst => rfl
    | LeftmostLongest => rfl
  | false =>
    cases kind with
    | Standard =>
      show Except.ok (stdScanFrom ps (tableNext ps) [] 0 h) =
        Except.ok (stdScanFrom ps (nfaNext ps) [] 0 h)
      rw [stdScanFrom_congr ps (tableNext ps) hagree h [] 0 (isNode_nil ps) hb]
    | LeftmostFirst => rfl
    | LeftmostLongest => rfl

theorem take_snoc_append (t : ByteStr) (b : Nat) (rest : ByteStr) :
    (t ++ b :: rest).take (t.length + 1) = t ++ [b] := by
  have h1 : t ++ b :: rest = (t ++ [b]) ++ rest := by simp
  have h2 : (t ++ [b]).length = t.length + 1 := by simp
  rw [h1, ← h2, List.take_left]

theorem suffix_take_substring (h p : ByteStr) (e : Nat) (he : e ≤ h.length)
    (hs : p <:+ h.take e) :
    p.length ≤ e ∧ substring h (e - p.length) e = p := by
  obtain ⟨w, hw⟩ := hs
  have hlen : w.length + p.length = e := by
    have := congrArg List.length hw
    rw [List.length_append, List.length_take] at this
    omega
  have hplen : p.length ≤ e := by omega
  refine ⟨hplen, ?_⟩
  have hsplit : h = w ++ (p ++ h.drop e) := by
    conv_lhs => rw [← List.take_append_drop e h]
    rw [← hw, List.append_assoc]
  unfold substring
  have hwl : e - p.length = w.length := by omega
  rw [hwl]
  conv_lhs => rw [hsplit]
  rw [List.drop_left]
  have hp2 : e - w.length = p.length := by omega
  rw [hp2]
  exact List.take_left p (h.drop e)

/-- Characterization of the overlapping scan from a reached state: its
matches are exactly the pattern occurrences ending strictly beyond the
already-consumed prefix `t`. -/
theorem mem_overlappingScanFrom (ps : List ByteStr) :
    ∀ (rest t : ByteStr) (m : Nat × Nat × Nat),
      m ∈ overlappingScanFrom ps (nfaNext ps) (longestNodeSuffix ps t) t.length rest ↔
        ∃ i e, m = (i, e - (ps.getD i []).length, e) ∧ i < ps.length ∧
          t.length < e ∧ e ≤ t.length + rest.length ∧
          ps.getD i [] <:+ (t ++ rest).take e := by
  intro rest
  induction rest with
  | nil =>
    intro t m
    constructor
    · intro hm
      exact absurd hm (List.not_mem_nil m)
    · rintro ⟨i, e, _, _, h1, h2, _⟩
      simp only [List.length_nil] at h2
      omega
  | cons b rest' ih =>
    intro t m
    simp only [overlappingScanFrom, List.mem_append, List.mem_map]
    rw [nfaNext_longestNodeSuffix ps t b]
    have hlen1 : (t ++ [b]).length = t.length + 1 := by simp
    have hassoc : (t ++ [b]) ++ rest' = t ++ b :: rest' := by simp
    constructor
    · rintro (⟨i, hik, hie⟩ | hrec)
      · obtain ⟨hi, hsfx⟩ := (mem_terminalChain ps _ i).mp hik
        rw [pattern_suffix_longestNodeSuffix ps (t ++ [b]) _ (getD_mem_of_lt ps i hi)]
          at hsfx
        refine ⟨i, t.length + 1, hie.symm, hi, by omega, by simp, ?_⟩
        rw [take_snoc_append t b rest']
        exact hsfx
      · rw [← hlen1] at hrec
        obtain ⟨i, e, hm, hi, he1, he2, hsfx⟩ := (ih (t ++ [b]) m).mp hrec
        rw [hlen1] at he1 he2
        rw [hassoc] at hsfx
        refine ⟨i, e, hm, hi, by omega, ?_, hsfx⟩
        simp only [List.length_cons]
        omega
    · rintro ⟨i, e, hm, hi, he1, he2, hsfx⟩
      by_cases hee : e = t.length + 1
      · left
        refine ⟨i, ?_, ?_⟩
        · rw [mem_terminalChain]
          refine ⟨hi, ?_⟩
          rw [pattern_suffix_longestNodeSuffix ps (t ++ [b]) _ (getD_mem_of_lt ps i hi)]
          rw [hee, take_snoc_append t b rest'] at hsfx
          exact hsfx
        · rw [hm, hee]
      · right
        rw [← hlen1]
        apply (ih (t ++ [b]) m).mpr
        refine ⟨i, e, hm, hi, ?_, ?_, ?_⟩
        · rw [hlen1]; omega
        · rw [hlen1]
          simp only [List.length_cons] at he2
          omega
        · rw [hassoc]
          exact hsfx

/-- Soundness of the standard non-overlapping scan: every emitted match is
a pattern occurrence ending beyond the consumed prefix `t` (the state is
the longest node suffix of some suffix `u` of the consumed text, which is
weaker than for the overlapping scan because the automaton is reset after
each match). -/
theorem stdScanFrom_props (ps : List ByteStr) :
    ∀ (rest t u : ByteStr) (m : Nat × Nat × Nat), u <:+ t →
      m ∈ stdScanFrom ps (nfaNext ps) (longestNodeSuffix ps u) t.length rest →
      ∃ i e, m = (i, e - (ps.getD i []).length, e) ∧ i < ps.length ∧
        t.length < e ∧ e ≤ t.length + rest.length ∧
        ps.getD i [] <:+ (t ++ rest).take e := by
  intro rest
  induction rest with
  | nil =>
    intro t u m _ hm
    exact absurd hm (List.not_mem_nil m)
  | cons b rest' ih =>
    intro t u m hu hm
    simp only [stdScanFrom] at hm
    rw [nfaNext_longestNodeSuffix ps u b] at hm
    have hlen1 : (t ++ [b]).length = t.length + 1 := by simp
    have hassoc : (t ++ [b]) ++ rest' = t ++ b :: rest' := by simp
    have hcons : ∀ (m : Nat × Nat × Nat),
        (∃ i e, m = (i, e - (ps.getD i []).length, e) ∧ i < ps.length ∧
          (t ++ [b]).length < e ∧ e ≤ (t ++ [b]).length + rest'.length ∧
          ps.getD i [] <:+ ((t ++ [b]) ++ rest').take e) →
        ∃ i e, m = (i, e - (ps.getD i []).length, e) ∧ i < ps.length ∧
          t.length < e ∧ e ≤ t.length + (b :: rest').length ∧
          ps.getD i [] <:+ (t ++ b :: rest').take e := by
      rintro m0 ⟨i, e, hm0, hi, he1, he2, hsfx⟩
      rw [hlen1] at he1 he2
      rw [hassoc] at hsfx
      exact ⟨i, e, hm0, hi, by omega, by simp only [List.length_cons]; omega, hsfx⟩
    cases hchain : terminalChain ps (longestNodeSuffix ps (u ++ [b])) with
    | nil =>
      rw [hchain] at hm
      have hrec := hm
      rw [show t.length + 1 = (t ++ [b]).length from hlen1.symm] at hrec
      exact hcons m (ih (t ++ [b]) (u ++ [b]) m (suffix_append_one u t b hu) hrec)
    | cons i rest2 =>
      rw [hchain] at hm
      rcases List.mem_cons.mp hm with hhead | hrec
      · have hik : i ∈ terminalChain ps (longestNodeSuffix ps (u ++ [b])) := by
          rw [hchain]; exact List.mem_cons_self i rest2
        obtain ⟨hi, hsfx⟩ := (mem_terminalChain ps _ i).mp hik
        rw [pattern_suffix_longestNodeSuffix ps (u ++ [b]) _ (getD_mem_of_lt ps i hi)]
          at hsfx
        have hsfx2 : ps.getD i [] <:+ t ++ [b] :=
          hsfx.trans (suffix_append_one u t b hu)
        refine ⟨i, t.length + 1, hhead, hi, by omega, by simp, ?_⟩
        rw [take_snoc_append t b rest']
        exact hsfx2
      · have hrec2 := hrec
        rw [show t.length + 1 = (t ++ [b]).length from hlen1.symm] at hrec2
        have hnil : (longestNodeSuffix ps ([] : ByteStr)) = [] := rfl
        rw [← hnil] at hrec2
        exact hcons m (ih (t ++ [b]) [] m List.nil_suffix hrec2)

theorem mem_occCandidates (ps : List ByteStr) (h : ByteStr) (i : Nat) (pid st : Nat) :
    (pid, st) ∈ occCandidates ps h i ↔
      i ≤ st ∧ pid < ps.length ∧ ps.getD pid [] ≠ [] ∧
        st + (ps.getD pid []).length ≤ h.length ∧
        substring h st (st + (ps.getD pid []).length) = ps.getD pid [] := by
  simp only [occCandidates, List.mem_flatMap, List.mem_range]
  constructor
  · rintro ⟨st', hst', hmem⟩
    by_cases hlt : st' < i
    · rw [if_pos hlt] at hmem
      exact absurd hmem (List.not_mem_nil _)
    · rw [if_neg hlt] at hmem
      obtain ⟨pid', hpid', hsome⟩ := List.mem_filterMap.mp hmem
      rw [List.mem_range] at hpid'
      split_ifs at hsome with hc
      · have hs := Option.some.inj hsome
        have hp1 : pid' = pid := congrArg Prod.fst hs
        have hp2 : st' = st := congrArg Prod.snd hs
        subst hp1
        subst hp2
        exact ⟨by omega, hpid', hc.1, hc.2.1, hc.2.2⟩
  · rintro ⟨h1, h2, h3, h4, h5⟩
    have hlp : 1 ≤ (ps.getD pid []).length := List.length_pos.mpr h3
    refine ⟨st, by omega, ?_⟩
    rw [if_neg (by omega)]
    apply List.mem_filterMap.mpr
    refine ⟨pid, List.mem_range.mpr h2, ?_⟩
    rw [if_pos ⟨h3, h4, h5⟩]

theorem foldl_pick_mem (ps : List ByteStr) :
    ∀ (l : List (Nat × Nat)) (a : Nat × Nat),
      (l.foldl (fun best x =>
        if (ps.getD best.1 []).length < (ps.getD x.1 []).length then x else best) a) = a ∨
      (l.foldl (fun best x =>
        if (ps.getD best.1 []).length < (ps.getD x.1 []).length then x else best) a) ∈ l := by
  intro l
  induction l with
  | nil => intro a; exact Or.inl rfl
  | cons x xs ih =>
    intro a
    simp only [List.foldl_cons]
    rcases ih (if (ps.getD a.1 []).length < (ps.getD x.1 []).length then x else a) with
      h | h
    · rw [h]
      by_cases hp : (ps.getD a.1 []).length < (ps.getD x.1 []).length
      · rw [if_pos hp]
        exact Or.inr (List.mem_cons_self x xs)
      · rw [if_neg hp]
        exact Or.inl rfl
    · exact Or.inr (List.mem_cons_of_mem x h)

theorem pickLeftmost_mem (ps : List ByteStr) (kind : MatchKind)
    (cands : List (Nat × Nat)) (c : Nat × Nat)
    (h : pickLeftmost ps kind cands = some c) : c ∈ cands := by
  unfold pickLeftmost at h
  cases cands with
  | nil => exact absurd h (by simp)
  | cons c0 rest =>
    cases kind with
    | LeftmostFirst =>
      have : c0 = c := by injection h
      rw [← this]
      exact List.mem_cons_self c0 rest
    | LeftmostLongest =>
      have hcm : c = ((c0 :: rest).filter (fun x => decide (x.2 = c0.2))).foldl
          (fun best x =>
            if (ps.getD best.1 []).length < (ps.getD x.1 []).length then x else best) c0 :=
        by injection h with h1; exact h1.symm
      rcases foldl_pick_mem ps ((c0 :: rest).filter (fun x => decide (x.2 = c0.2))) c0 with
        hf | hf
      · rw [hcm, hf]; exact List.mem_cons_self c0 rest
      · rw [hcm]; exact List.mem_of_mem_filter hf
    | Standard =>
      have hcm : c = ((c0 :: rest).filter (fun x => decide (x.2 = c0.2))).foldl
          (fun best x =>
            if (ps.getD best.1 []).length < (ps.getD x.1 []).length then x else best) c0 :=
        by injection h with h1; exact h1.symm
      rcases foldl_pick_mem ps ((c0 :: rest).filter (fun x => decide (x.2 = c0.2))) c0 with
        hf | hf
      · rw [hcm, hf]; exact List.mem_cons_self c0 rest
      · rw [hcm]; exact List.mem_of_mem_filter hf

theorem leftmostScanAux_sound (ps : List ByteStr) (kind : MatchKind) (h : ByteStr) :
    ∀ (fuel i : Nat) (m : Nat × Nat × Nat),
      m ∈ leftmostScanAux ps kind h i fuel → IsOccurrence ps h m := by
  intro fuel
  induction fuel with
  | zero => intro i m hm; exact absurd hm (List.not_mem_nil m)
  | succ fuel ih =>
    intro i m hm
    rw [leftmostScanAux] at hm
    cases hp : pickLeftmost ps kind (occCandidates ps h i) with
    | none => rw [hp] at hm; exact absurd hm (List.not_mem_nil m)
    | some c =>
      obtain ⟨pid, st⟩ := c
      rw [hp] at hm
      rcases List.mem_cons.mp hm with hhead | hrec
      · have hcand := pickLeftmost_mem ps kind _ _ hp
        rw [mem_occCandidates] at hcand
        obtain ⟨_, h2, h3, h4, h5⟩ := hcand
        rw [hhead]
        exact ⟨h2, h4, rfl, h5⟩
      · exact ih _ m hrec

/-- Every match reported by any scan mode (with the runtime-failure-link
transition function) is a genuine occurrence of its pattern. -/
theorem getMatches_occurrence (ps : List ByteStr) (kind : MatchKind) (h : ByteStr)
    (ov : Bool) (l : List (Nat × Nat × Nat))
    (hok : getMatches ps kind (nfaNext ps) h ov = Except.ok l) :
    ∀ m ∈ l, IsOccurrence ps h m := by
  intro m hm
  cases ov with
  | true =>
    cases kind with
    | Standard =>
      have hl : overlappingScanFrom ps (nfaNext ps) [] 0 h = l := Except.ok.inj hok
      rw [← hl] at hm
      obtain ⟨i, e, hm', hi, he1, he2, hsfx⟩ := (mem_overlappingScanFrom ps h [] m).mp hm
      simp only [List.length_nil, List.nil_append] at he1 he2 hsfx
      obtain ⟨hle, hsub⟩ := suffix_take_substring h (ps.getD i []) e (by omega) hsfx
      rw [hm']
      refine ⟨hi, ?_, ?_, ?_⟩
      · show e ≤ h.length
        omega
      · show (e - (ps.getD i []).length) + (ps.getD i []).length = e
        omega
      · show substring h (e - (ps.getD i []).length) e = ps.getD i []
        exact hsub
    | LeftmostFirst => simp [getMatches] at hok
    | LeftmostLongest => simp [getMatches] at hok
  | false =>
    cases kind with
    | Standard =>
      have hl : stdScanFrom ps (nfaNext ps) [] 0 h = l := Except.ok.inj hok
      rw [← hl] at hm
      obtain ⟨i, e, hm', hi, he1, he2, hsfx⟩ :=
        stdScanFrom_props ps h [] [] m List.nil_suffix hm
      simp only [List.length_nil, List.nil_append] at he1 he2 hsfx
      obtain ⟨hle, hsub⟩ := suffix_take_substring h (ps.getD i []) e (by omega) hsfx
      rw [hm']
      refine ⟨hi, ?_, ?_, ?_⟩
      · show e ≤ h.length
        omega
      · show (e - (ps.getD i []).length) + (ps.getD i []).length = e
        omega
      · show substring h (e - (ps.getD i []).length) e = ps.getD i []
        exact hsub
    | LeftmostFirst =>
      have hl : leftmostScan ps MatchKind.LeftmostFirst h = l := Except.ok.inj hok
      rw [← hl] at hm
      exact leftmostScanAux_sound ps MatchKind.LeftmostFirst h _ _ m hm
    | LeftmostLongest =>
      have hl : leftmostScan ps MatchKind.LeftmostLongest h = l := Except.ok.inj hok
      rw [← hl] at hm
      exact leftmostScanAux_sound ps MatchKind.LeftmostLongest h _ _ m hm

/-- Completeness of the overlapping scan: every occurrence is reported. -/
theorem occurrence_mem_overlappingScan (ps : List ByteStr) (h : ByteStr) (i e : Nat)
    (hi : i < ps.length) (he1 : 0 < e) (he2 : e ≤ h.length)
    (hsfx : ps.getD i [] <:+ h.take e) :
    (i, e - (ps.getD i []).length, e) ∈ overlappingScanFrom ps (nfaNext ps) [] 0 h := by
  apply (mem_overlappingScanFrom ps h [] _).mpr
  refine ⟨i, e, rfl, hi, by simpa using he1, by simpa using he2, ?_⟩
  simpa using hsfx

/-- The standard non-overlapping scan only reports matches that the
overlapping scan also reports. -/
theorem stdScan_subset_overlapping (ps : List ByteStr) (h : ByteStr)
    (m : Nat × Nat × Nat) (hm : m ∈ stdScanFrom ps (nfaNext ps) [] 0 h) :
    m ∈ overlappingScanFrom ps (nfaNext ps) [] 0 h := by
  obtain ⟨i, e, hm', hi, he1, he2, hsfx⟩ :=
    stdScanFrom_props ps h [] [] m List.nil_suffix hm
  simp only [List.length_nil, List.nil_append] at he1 he2 hsfx
  rw [hm']
  exact occurrence_mem_overlappingScan ps h i e hi (by omega) (by omega) hsfx

/-- Heuristic loop of `PyAhoCorasick::new` (src/lib.rs lines 161-177):
while `store_patterns` is unset, collect patterns and accumulate their
Python `len()` (the codepoint count); once the running total exceeds 4096,
stop with `store_patterns = false`.  The pattern crossing the threshold is
pushed before the check.  Returns (collected, remaining, store). -/
def heuristicSplit : List (List Nat) → Nat → List (List Nat) × List (List Nat) × Bool
  | [], _ => ([], [], true)
  | p :: rest, total =>
      if total + p.length > 4096 then ([p], rest, false)
      else
        let r := heuristicSplit rest (total + p.length)
        (p :: r.1, r.2.1, r.2.2)

/-- The crate-level automaton captured by the binding: the (byte) patterns
fed to `AhoCorasickBuilder::build`, the match kind and the requested
representation. -/
structure AcImpl where
  patterns : List ByteStr
  matchKind : MatchKind
  kind : Option Implementation

/-- The Python `AhoCorasick` object (src/lib.rs `PyAhoCorasick`): the built
automaton plus the optionally retained pattern strings. -/
structure PyAhoCorasick where
  acImpl : AcImpl
  patterns : Option (List (List Nat))

/-- The Python `BytesAhoCorasick` object (src/lib.rs `PyBytesAhoCorasick`):
no patterns are ever retained. -/
structure PyBytesAhoCorasick where
  acImpl : AcImpl

/-- `PyAhoCorasick::new` (src/lib.rs lines 132-223).  Patterns are Python
strings, modelled as codepoint sequences; the automaton is built over their
UTF-8 bytes.  Any empty pattern makes construction fail with the
empty-pattern error and no automaton value is produced. -/
def PyAhoCorasick.new (ps : List (List Nat)) (matchkind : MatchKind)
    (storePatterns : Option Bool) (implementation : Option Implementation) :
    Except Err PyAhoCorasick :=
  let store := match storePatterns with
    | some b => b
    | none => (heuristicSplit ps 0).2.2
  let collected : List (List Nat) := match storePatterns with
    | some true => ps
    | some false => []
    | none => (heuristicSplit ps 0).1
  if ps.any (fun p => p.isEmpty) then Except.error Err.emptyPattern
  else Except.ok
    { acImpl := AcImpl.mk (ps.map utf8Encode) matchkind implementation
      patterns := if store then some collected else none }

/-- `PyBytesAhoCorasick::new` (src/lib.rs lines 367-412).  Patterns are raw
byte buffers; empty patterns fail construction; no patterns are
retained. -/
def PyBytesAhoCorasick.new (ps : List ByteStr) (matchkind : MatchKind)
    (implementation : Option Implementation) : Except Err PyBytesAhoCorasick :=
  if ps.any (fun p => p.isEmpty) then Except.error Err.emptyPattern
  else Except.ok { acImpl := AcImpl.mk ps matchkind implementation }

/-- The transition function of a built automaton; when no representation
was requested the spec's default (DFA, §6) is used. -/
def acNext (ac : AcImpl) : ByteStr → Nat → ByteStr :=
  nextFor ac.patterns (ac.kind.getD Implementation.DFA)

/-- `PyAhoCorasick::find_matches_as_indexes` (src/lib.rs lines 228-248):
run the byte-level scan and translate byte offsets through the
byte-to-codepoint table. -/
def PyAhoCorasick.findMatchesAsIndexes (a : PyAhoCorasick) (haystack : List Nat)
    (overlapping : Bool) : Except Err (List (Nat × Nat × Nat)) :=
  let byteToCodePoint := getByteToCodePoint haystack
  (getMatches a.acImpl.patterns a.acImpl.matchKind (acNext a.acImpl)
      (utf8Encode haystack) overlapping).map
    (List.map (fun m =>
      (m.1, byteToCodePoint.getD m.2.1 0, byteToCodePoint.getD m.2.2 0)))

/-- `PyAhoCorasick::find_matches_as_strings` (src/lib.rs lines 252-271):
if the patterns were retained look the match up by pattern id, otherwise
re-slice the matched region out of the haystack.  Python strings are
modelled by their UTF-8 bytes. -/
def PyAhoCorasick.findMatchesAsStrings (a : PyAhoCorasick) (haystack : List Nat)
    (overlapping : Bool) : Except Err (List ByteStr) :=
  (getMatches a.acImpl.patterns a.acImpl.matchKind (acNext a.acImpl)
      (utf8Encode haystack) overlapping).map
    (fun ms => match a.patterns with
      | some pats => ms.map (fun m => utf8Encode (pats.getD m.1 []))
      | none => ms.map (fun m => substring (utf8Encode haystack) m.2.1 m.2.2))

/-- `PyBytesAhoCorasick::find_matches_as_indexes` (src/lib.rs lines
421-433): byte-mode scan, offsets reported as byte offsets. -/
def PyBytesAhoCorasick.findMatchesAsIndexes (a : PyBytesAhoCorasick)
    (haystack : ByteStr) (overlapping : Bool) :
    Except Err (List (Nat × Nat × Nat)) :=
  getMatches a.acImpl.patterns a.acImpl.matchKind (acNext a.acImpl) haystack overlapping

theorem utf8Encode_lt256 (s : List Nat) (hs : ∀ c ∈ s, c < 1114112) :
    ∀ b ∈ utf8Encode s, b < 256 := by
  intro b hb
  obtain ⟨c, hc, hbc⟩ := List.mem_flatMap.mp hb
  have hcv := hs c hc
  by_cases hc1 : c < 128
  · rw [utf8EncodeChar_eq_of_lt128 c hc1] at hbc
    simp at hbc
    omega
  · by_cases hc2 : c < 2048
    · rw [utf8EncodeChar_eq_of_lt2048 c hc1 hc2] at hbc
      simp at hbc
      rcases hbc with h | h <;> omega
    · by_cases hc3 : c < 65536
      · rw [utf8EncodeChar_eq_of_lt65536 c hc2 hc3] at hbc
        simp at hbc
        rcases hbc with h | h | h <;> omega
      · rw [utf8EncodeChar_eq_of_ge65536 c hc3] at hbc
        simp at hbc
        rcases hbc with h | h | h | h <;> omega

theorem substring_to_prefix (H p : ByteStr) (st en : Nat)
    (hlen : st + p.length = en) (hsub : substring H st en = p) :
    p <+: H.drop st := by
  unfold substring at hsub
  rw [show en - st = p.length from by omega] at hsub
  rw [← hsub]
  exact List.take_prefix _ _

theorem getD_map_utf8 (ps : List (List Nat)) (i : Nat) (h : i < ps.length) :
    (ps.map utf8Encode).getD i [] = utf8Encode (ps.getD i []) := by
  rw [List.getD_eq_getElem _ _ (by simpa using h), List.getElem_map,
    List.getD_eq_getElem _ _ h]

theorem utf8Encode_ne_nil (p : List Nat) (hp : p ≠ []) : utf8Encode p ≠ [] := by
  intro h
  have := utf8ListLen_pos p hp
  rw [utf8ListLen, h] at this
  simp at this

/-- The default representation (or any requested one) produces the same
matches as the runtime-failure-link automaton. -/
theorem getMatches_acNext (ps : List ByteStr) (kind : MatchKind)
    (impl : Option Implementation) (h : ByteStr) (ov : Bool)
    (hb : ∀ b ∈ h, b < 256) :
    getMatches ps kind (nextFor ps (impl.getD Implementation.DFA)) h ov =
      getMatches ps kind (nfaNext ps) h ov := by
  cases himpl : impl.getD Implementation.DFA with
  | NoncontiguousNFA => rfl
  | ContiguousNFA => exact getMatches_table_eq ps kind h ov hb
  | DFA => exact getMatches_table_eq ps kind h ov hb

/-- The table entries consulted for a reported match are the codepoint
counts before the match's byte offsets. -/
theorem match_offsets_codepoints (hs p : List Nat) (st en : Nat)
    (hp : p ≠ [])
    (hen : en ≤ (utf8Encode hs).length)
    (hlen : st + (utf8Encode p).length = en)
    (hsub : substring (utf8Encode hs) st en = utf8Encode p) :
    (getByteToCodePoint hs).getD st 0 = codepointsBefore hs st ∧
    (getByteToCodePoint hs).getD en 0 = codepointsBefore hs en := by
  have hpre : utf8Encode p <+: (utf8Encode hs).drop st :=
    substring_to_prefix (utf8Encode hs) (utf8Encode p) st en hlen hsub
  have hplen : 1 ≤ (utf8Encode p).length := by
    have := utf8ListLen_pos p hp
    rw [utf8ListLen] at this
    omega
  have hstlt : st < (utf8Encode hs).length := by omega
  obtain ⟨k, hk, hkb⟩ := occurrence_start_boundary hs p st hp hpre hstlt
  have hklt : k < hs.length := by
    rcases Nat.lt_or_ge k hs.length with hl | hg
    · exact hl
    · exfalso
      have hkeq : k = hs.length := by omega
      have htk : hs.take k = hs := by rw [hkeq]; exact List.take_of_length_le (le_refl _)
      rw [htk] at hkb
      rw [utf8ListLen] at hkb
      omega
  refine ⟨?_, ?_⟩
  · rw [hkb, getByteToCodePoint_boundary hs k hklt, codepointsBefore_boundary hs k]
    omega
  · have hdrop : (utf8Encode hs).drop st = utf8Encode (hs.drop k) := by
      rw [hkb]
      exact utf8Encode_drop_boundary hs k
    have hpre2 : utf8Encode p <+: utf8Encode (hs.drop k) := hdrop ▸ hpre
    obtain ⟨k', hk', hkb'⟩ := occurrence_end_boundary hs p k hk hpre2
    have hen2 : en = utf8ListLen (hs.take k') := by
      rw [← hkb', ← hkb]
      rw [show utf8ListLen p = (utf8Encode p).length from rfl]
      omega
    rcases Nat.lt_or_ge k' hs.length with hlt | hge
    · rw [hen2, getByteToCodePoint_boundary hs k' hlt, codepointsBefore_boundary hs k']
      omega
    · have hkeq : k' = hs.length := by omega
      have htk : hs.take k' = hs := by rw [hkeq]; exact List.take_of_length_le (le_refl _)
      have hen3 : en = utf8ListLen hs := by rw [hen2, htk]
      have hhs : hs ≠ [] := by
        intro hnil
        subst hnil
        rw [utf8Encode_nil] at hen
        simp at hen
        omega
      have hcpb : codepointsBefore hs en = hs.length := by
        have hb := codepointsBefore_boundary hs hs.length
        rw [List.take_of_length_le (le_refl _)] at hb
        rw [hen3, hb]
        omega
      rw [hcpb, hen3, getByteToCodePoint_end hs hhs]

theorem heuristicSplit_store_iff :
    ∀ (ps : List (List Nat)) (total : Nat), total ≤ 4096 →
      ((heuristicSplit ps total).2.2 = true ↔
        total + (ps.map List.length).sum ≤ 4096) := by
  intro ps
  induction ps with
  | nil =>
    intro total ht
    simp [heuristicSplit]
    omega
  | cons p rest ih =>
    intro total ht
    rw [heuristicSplit]
    by_cases hc : total + p.length > 4096
    · rw [if_pos hc]
      simp only [List.map_cons, List.sum_cons]
      constructor
      · intro hfalse; simp at hfalse
      · intro hle; omega
    · rw [if_neg hc]
      simp only [List.map_cons, List.sum_cons]
      have := ih (total + p.length) (by omega)
      constructor
      · intro hrec
        have := this.mp hrec
        omega
      · intro hle
        exact this.mpr (by omega)

theorem heuristicSplit_collected :
    ∀ (ps : List (List Nat)) (total : Nat),
      (heuristicSplit ps total).2.2 = true → (heuristicSplit ps total).1 = ps := by
  intro ps
  induction ps with
  | nil => intro total _; rfl
  | cons p rest ih =>
    intro total hs
    rw [heuristicSplit] at hs ⊢
    by_cases hc : total + p.length > 4096
    · rw [if_pos hc] at hs
      simp at hs
    · rw [if_neg hc] at hs ⊢
      simp only at hs ⊢
      rw [ih (total + p.length) hs]

/-- Inversion of successful text-mode construction. -/
theorem textNew_ok (ps : List (List Nat)) (mk : MatchKind)
    (sp : Option Bool) (impl : Option Implementation) (a : PyAhoCorasick)
    (h : PyAhoCorasick.new ps mk sp impl = Except.ok a) :
    a.acImpl = AcImpl.mk (ps.map utf8Encode) mk impl ∧
      (a.patterns = none ∨ a.patterns = some ps) ∧
      (∀ p ∈ ps, p ≠ []) := by
  unfold PyAhoCorasick.new at h
  split_ifs at h with hc
  have ha := Except.ok.inj h
  subst ha
  refine ⟨rfl, ?_, ?_⟩
  · cases sp with
    | some b =>
      cases b with
      | true => exact Or.inr rfl
      | false => exact Or.inl rfl
    | none =>
      by_cases hst : (heuristicSplit ps 0).2.2 = true
      · right
        show (if (heuristicSplit ps 0).2.2 = true
            then some ((heuristicSplit ps 0).1) else none) = some ps
        rw [if_pos hst, heuristicSplit_collected ps 0 hst]
      · left
        show (if (heuristicSplit ps 0).2.2 = true
            then some ((heuristicSplit ps 0).1) else none) = none
        rw [if_neg hst]
  · intro p hp hpe
    apply hc
    rw [List.any_eq_true]
    exact ⟨p, hp, by rw [hpe]; rfl⟩

/-- Inversion of successful byte-mode construction. -/
theorem bytesNew_ok (ps : List ByteStr) (mk : MatchKind)
    (impl : Option Implementation) (a : PyBytesAhoCorasick)
    (h : PyBytesAhoCorasick.new ps mk impl = Except.ok a) :
    a.acImpl = AcImpl.mk ps mk impl ∧ (∀ p ∈ ps, p ≠ []) := by
  unfold PyBytesAhoCorasick.new at h
  split_ifs at h with hc
  have ha := Except.ok.inj h
  refine ⟨by rw [← ha], ?_⟩
  intro p hp hpe
  apply hc
  rw [List.any_eq_true]
  exact ⟨p, hp, by rw [hpe]; rfl⟩

/-- C1: for every pattern sequence containing a zero-length pattern,
construction fails with the empty-pattern error in both text mode and byte
mode, producing no automaton: the `Except.error` result carries no
(partial) automaton value, regardless of how many valid patterns precede
the empty one. -/
theorem empty_pattern_fails (ps : List (List Nat)) (psB : List ByteStr)
    (mk : MatchKind) (sp : Option Bool) (impl : Option Implementation)
    (hx : ∃ p ∈ ps, p = []) (hxB : ∃ p ∈ psB, p = []) :
    PyAhoCorasick.new ps mk sp impl = Except.error Err.emptyPattern ∧
    PyBytesAhoCorasick.new psB mk impl = Except.error Err.emptyPattern := by
  obtain ⟨p, hp, hpe⟩ := hx
  obtain ⟨q, hq, hqe⟩ := hxB
  constructor
  · unfold PyAhoCorasick.new
    rw [if_pos]
    rw [List.any_eq_true]
    exact ⟨p, hp, by rw [hpe]; rfl⟩
  · unfold PyBytesAhoCorasick.new
    rw [if_pos]
    rw [List.any_eq_true]
    exact ⟨q, hq, by rw [hqe]; rfl⟩

/-- C1 witness: a concrete pattern list with 1000 valid patterns followed
by an empty one fails in both modes. -/
theorem empty_pattern_fails_witness :
    PyAhoCorasick.new (List.replicate 1000 [97] ++ [[]]) MatchKind.Standard none none =
      Except.error Err.emptyPattern ∧
    PyBytesAhoCorasick.new (List.replicate 1000 [97] ++ [[]]) MatchKind.Standard none =
      Except.error Err.emptyPattern :=
  empty_pattern_fails (List.replicate 1000 [97] ++ [[]])
    (List.replicate 1000 [97] ++ [[]]) MatchKind.Standard none none
    ⟨[], List.mem_append.mpr (Or.inr (List.mem_singleton.mpr rfl)), rfl⟩
    ⟨[], List.mem_append.mpr (Or.inr (List.mem_singleton.mpr rfl)), rfl⟩

/-- C2: for every automaton, requesting the overlapping scan under
`leftmost-first` or `leftmost-longest` fails with the
unsupported-operation error, while under the `standard` kind it
succeeds. -/
theorem overlapping_requires_standard (ps : List ByteStr)
    (next : ByteStr → Nat → ByteStr) (h : ByteStr) :
    getMatches ps MatchKind.LeftmostFirst next h true =
      Except.error Err.unsupportedOverlapping ∧
    getMatches ps MatchKind.LeftmostLongest next h true =
      Except.error Err.unsupportedOverlapping ∧
    ∃ l, getMatches ps MatchKind.Standard next h true = Except.ok l :=
  ⟨rfl, rfl, ⟨overlappingScanFrom ps next [] 0 h, rfl⟩⟩

/-- C4 (amended): under the default retention policy, construction sums the
Python `len()` of the patterns (their codepoint counts, not their byte
lengths); if the running total ever exceeds 4096 the automaton retains no
patterns at all, otherwise it retains all of them - retention is
all-or-nothing. -/
theorem heuristic_retention_amended (ps : List (List Nat)) (mk : MatchKind)
    (impl : Option Implementation) (a : PyAhoCorasick)
    (h : PyAhoCorasick.new ps mk none impl = Except.ok a) :
    a.patterns = if (ps.map List.length).sum ≤ 4096 then some ps else none := by
  unfold PyAhoCorasick.new at h
  split_ifs at h with hc
  have ha := Except.ok.inj h
  subst ha
  show (if (heuristicSplit ps 0).2.2 = true
      then some ((heuristicSplit ps 0).1) else none) =
    if (ps.map List.length).sum ≤ 4096 then some ps else none
  by_cases hsum : (ps.map List.length).sum ≤ 4096
  · have hst : (heuristicSplit ps 0).2.2 = true :=
      (heuristicSplit_store_iff ps 0 (by omega)).mpr (by omega)
    rw [if_pos hst, if_pos hsum, heuristicSplit_collected ps 0 hst]
  · have hst : ¬ (heuristicSplit ps 0).2.2 = true := by
      intro hx
      have := (heuristicSplit_store_iff ps 0 (by omega)).mp hx
      omega
  
    rw [if_neg hst, if_neg hsum]

/-- C4 witness: a small pattern set below the threshold retains all
patterns. -/
theorem heuristic_retention_amended_witness :
    (PyAhoCorasick.mk (AcImpl.mk [[97]] MatchKind.Standard none)
        (some [[97]])).patterns =
      if (([[97]] : List (List Nat)).map List.length).sum ≤ 4096
      then some [[97]] else none :=
  heuristic_retention_amended [[97]] MatchKind.Standard none
    (PyAhoCorasick.mk (AcImpl.mk [[97]] MatchKind.Standard none) (some [[97]])) rfl

theorem utf8ListLen_replicate (n c : Nat) :
    utf8ListLen (List.replicate n c) = n * utf8Len1 c := by
  induction n with
  | zero =>
    rw [List.replicate_zero, Nat.zero_mul]
    rfl
  | succ n ih =>
    rw [List.replicate_succ, utf8ListLen_cons, ih]
    ring

theorem replicate_succ_not_isEmpty (n c : Nat) :
    (List.replicate (n + 1) c).isEmpty = false := by
  rw [List.replicate_succ]
  rfl

/-- C4 counterexample: (a) patterns of codepoint lengths 3000 and 2000: the
running total exceeds 4096 while processing the second pattern, yet nothing
at all is retained (the first, already-collected pattern is discarded too,
contradicting "already-retained patterns are kept"); (b) a 4500-byte
pattern (1500 three-byte codepoints) followed by "a": the byte total 4501
exceeds 4096, yet both patterns are retained because the code sums Python
codepoint counts (1501 <= 4096), contradicting "sum the byte lengths
while iterating". -/
theorem PyAhoCorasick.new_patterns_heuristic (ps : List (List Nat)) (mk : MatchKind)
    (impl : Option Implementation) (hne : (ps.any fun p => p.isEmpty) = false) :
    (PyAhoCorasick.new ps mk none impl).map PyAhoCorasick.patterns =
      Except.ok (if (heuristicSplit ps 0).2.2 = true
        then some ((heuristicSplit ps 0).1) else none) := by
  unfold PyAhoCorasick.new
  rw [if_neg (by rw [hne]; exact Bool.false_ne_true)]
  rfl

theorem heuristic_retention_counterexample :
    ((PyAhoCorasick.new [List.replicate 3000 97, List.replicate 2000 97]
        MatchKind.Standard none none).map PyAhoCorasick.patterns =
      Except.ok none) ∧
    ((PyAhoCorasick.new [List.replicate 1500 2048, [97]]
        MatchKind.Standard none none).map PyAhoCorasick.patterns =
      Except.ok (some [List.replicate 1500 2048, [97]])) ∧
    utf8ListLen (List.replicate 1500 2048) + utf8ListLen [97] = 4501 ∧
    (List.replicate 1500 2048).length + ([97] : List Nat).length = 1501 := by
  have hany1 : (([List.replicate 3000 (97:Nat), List.replicate 2000 97]).any
      (fun p => p.isEmpty)) = false := by
    rw [List.any_eq_false]
    intro x hx
    rcases List.mem_cons.mp hx with hx1 | hx2
    · rw [hx1, show (3000:Nat) = 2999 + 1 from rfl, replicate_succ_not_isEmpty]
      exact Bool.false_ne_true
    · rw [List.mem_singleton.mp hx2, show (2000:Nat) = 1999 + 1 from rfl,
        replicate_succ_not_isEmpty]
      exact Bool.false_ne_true
  have hany2 : (([List.replicate 1500 (2048:Nat), [97]]).any
      (fun p => p.isEmpty)) = false := by
    rw [List.any_eq_false]
    intro x hx
    rcases List.mem_cons.mp hx with hx1 | hx2
    · rw [hx1, show (1500:Nat) = 1499 + 1 from rfl, replicate_succ_not_isEmpty]
      exact Bool.false_ne_true
    · rw [List.mem_singleton.mp hx2]
      intro hfalse
      simp at hfalse
  have hsplit1 : heuristicSplit [List.replicate 3000 97, List.replicate 2000 97] 0 =
      ([List.replicate 3000 97, List.replicate 2000 97], [], false) := by
    rw [heuristicSplit, List.length_replicate, if_neg (by omega)]
    rw [heuristicSplit, List.length_replicate, if_pos (by omega)]
  have hsplit2 : heuristicSplit [List.replicate 1500 2048, [97]] 0 =
      ([List.replicate 1500 2048, [97]], [], true) := by
    rw [heuristicSplit, List.length_replicate, if_neg (by omega)]
    rw [heuristicSplit, if_neg (by show ¬ 0 + 1500 + ([97] : List Nat).length > 4096; simp)]
    rw [heuristicSplit]
  refine ⟨?_, ?_, ?_, ?_⟩
  · rw [PyAhoCorasick.new_patterns_heuristic _ MatchKind.Standard none hany1, hsplit1]
    rfl
  · rw [PyAhoCorasick.new_patterns_heuristic _ MatchKind.Standard none hany2, hsplit2]
    rfl
  · rw [utf8ListLen_replicate, show utf8Len1 2048 = 3 from rfl,
      show utf8ListLen [97] = 1 from rfl]
  · rw [List.length_replicate]
    rfl

/-- C5: the three representation kinds, built from the same pattern set and
match kind, produce identical match sequences on every haystack, in both
overlapping and non-overlapping mode. -/
theorem representation_independent (ps : List ByteStr) (kind : MatchKind)
    (i1 i2 : Implementation) (h : ByteStr) (ov : Bool)
    (hb : ∀ b ∈ h, b < 256) :
    getMatches ps kind (nextFor ps i1) h ov =
      getMatches ps kind (nextFor ps i2) h ov := by
  have key : ∀ i : Implementation,
      getMatches ps kind (nextFor ps i) h ov =
        getMatches ps kind (nfaNext ps) h ov := by
    intro i
    cases i with
    | NoncontiguousNFA => rfl
    | ContiguousNFA => exact getMatches_table_eq ps kind h ov hb
    | DFA => exact getMatches_table_eq ps kind h ov hb
  rw [key i1, key i2]

/-- C5 witness: the noncontiguous NFA and the DFA agree on a concrete
scan. -/
theorem representation_independent_witness :
    getMatches [[97]] MatchKind.Standard
        (nextFor [[97]] Implementation.NoncontiguousNFA) [97] true =
      getMatches [[97]] MatchKind.Standard
        (nextFor [[97]] Implementation.DFA) [97] true :=
  representation_independent [[97]] MatchKind.Standard
    Implementation.NoncontiguousNFA Implementation.DFA [97] true
    (by intro b hb; simp at hb; omega)

/-- C6: under the standard match kind the overlapping scan's result is a
superset of the non-overlapping scan's result, and every overlapping match
is a genuine occurrence: the haystack bytes at its reported offsets equal
the pattern with its reported id. -/
theorem standard_overlapping_superset (ps : List ByteStr) (h : ByteStr)
    (l1 l2 : List (Nat × Nat × Nat))
    (h1 : getMatches ps MatchKind.Standard (nfaNext ps) h false = Except.ok l1)
    (h2 : getMatches ps MatchKind.Standard (nfaNext ps) h true = Except.ok l2) :
    (∀ m ∈ l1, m ∈ l2) ∧ ∀ m ∈ l2, IsOccurrence ps h m := by
  have hl1 : stdScanFrom ps (nfaNext ps) [] 0 h = l1 := Except.ok.inj h1
  have hl2 : overlappingScanFrom ps (nfaNext ps) [] 0 h = l2 := Except.ok.inj h2
  constructor
  · intro m hm
    rw [← hl2]
    rw [← hl1] at hm
    exact stdScan_subset_overlapping ps h m hm
  · exact getMatches_occurrence ps MatchKind.Standard h true l2 h2

/-- C6 witness: for pattern "a" and haystack "aa" both scans return both
occurrences and the superset and verifiability properties hold. -/
theorem standard_overlapping_superset_witness :
    (∀ m ∈ ([(0,0,1),(0,1,2)] : List (Nat × Nat × Nat)),
      m ∈ ([(0,0,1),(0,1,2)] : List (Nat × Nat × Nat))) ∧
    ∀ m ∈ ([(0,0,1),(0,1,2)] : List (Nat × Nat × Nat)),
      IsOccurrence [[97]] [97,97] m :=
  standard_overlapping_superset [[97]] [97,97] [(0,0,1),(0,1,2)] [(0,0,1),(0,1,2)]
    (by rfl) (by rfl)

theorem occCandidates_nil (ps : List ByteStr) (i : Nat) :
    occCandidates ps [] i = [] := by
  rw [List.eq_nil_iff_forall_not_mem]
  intro x
  rcases x with ⟨pid, st⟩
  rw [mem_occCandidates]
  rintro ⟨_, _, h3, h4, _⟩
  have := List.length_pos.mpr h3
  simp only [List.length_nil] at h4
  omega

theorem leftmostScan_nil (ps : List ByteStr) (kind : MatchKind) :
    leftmostScan ps kind [] = [] := by
  unfold leftmostScan
  show leftmostScanAux ps kind [] 0 1 = []
  rw [leftmostScanAux, occCandidates_nil]
  rfl

theorem getMatches_nil_haystack (ps : List ByteStr) (kind : MatchKind)
    (next : ByteStr → Nat → ByteStr) (ov : Bool) (l : List (Nat × Nat × Nat))
    (h : getMatches ps kind next [] ov = Except.ok l) : l = [] := by
  cases ov with
  | true =>
    cases kind with
    | Standard => exact (Except.ok.inj h).symm
    | LeftmostFirst => simp [getMatches] at h
    | LeftmostLongest => simp [getMatches] at h
  | false =>
    cases kind with
    | Standard => exact (Except.ok.inj h).symm
    | LeftmostFirst =>
      have hl : leftmostScan ps MatchKind.LeftmostFirst [] = l := Except.ok.inj h
      rw [← hl]
      exact (leftmostScan_nil ps MatchKind.LeftmostFirst).symm ▸ rfl
    | LeftmostLongest =>
      have hl : leftmostScan ps MatchKind.LeftmostLongest [] = l := Except.ok.inj h
      rw [← hl]
      exact (leftmostScan_nil ps MatchKind.LeftmostLongest).symm ▸ rfl

/-- C10: for the empty text haystack the byte-to-codepoint table is the
single unresolved sentinel entry `usize::MAX`, yet
`find_matches_as_indexes` never reads it: whenever the scan succeeds it
returns the empty match list. -/
theorem empty_haystack_safe :
    getByteToCodePoint [] = [usizeMax] ∧
    ∀ (a : PyAhoCorasick) (ov : Bool) (l : List (Nat × Nat × Nat)),
      PyAhoCorasick.findMatchesAsIndexes a [] ov = Except.ok l → l = [] := by
  refine ⟨rfl, ?_⟩
  intro a ov l hok
  simp only [PyAhoCorasick.findMatchesAsIndexes] at hok
  cases hg : getMatches a.acImpl.patterns a.acImpl.matchKind (acNext a.acImpl)
      (utf8Encode []) ov with
  | error e =>
    rw [hg] at hok
    simp [Except.map] at hok
  | ok ms =>
    rw [hg] at hok
    have hms : ms = [] := getMatches_nil_haystack _ _ _ _ _ hg
    have hinj := Except.ok.inj hok
    rw [← hinj, hms]
    rfl

/-- C10 witness: a concrete automaton scanned over the empty haystack. -/
theorem empty_haystack_safe_witness :
    getByteToCodePoint [] = [usizeMax] ∧ ([] : List (Nat × Nat × Nat)) = [] :=
  ⟨empty_haystack_safe.1,
    empty_haystack_safe.2
      (PyAhoCorasick.mk (AcImpl.mk [[104,101]] MatchKind.Standard
        (some Implementation.NoncontiguousNFA)) none) true [] rfl⟩

/-- C7 counterexample: for patterns ["he","hers","she"] and haystack
"ushers", the standard overlapping scan does NOT yield "he" at [1,3)
(haystack[1..3] is "sh"), and it DOES yield a match of "she" (id 2) at
[1,4): the claim's expected output is wrong on both counts. -/
theorem ushers_claim_false :
    PyAhoCorasick.findMatchesAsIndexes
        (PyAhoCorasick.mk (AcImpl.mk [[104,101],[104,101,114,115],[115,104,101]]
          MatchKind.Standard (some Implementation.NoncontiguousNFA))
          (some [[104,101],[104,101,114,115],[115,104,101]]))
        [117,115,104,101,114,115] true =
      Except.ok [(2,1,4),(0,2,4),(1,2,6)] ∧
    ((0,1,3) : Nat × Nat × Nat) ∉ ([(2,1,4),(0,2,4),(1,2,6)] : List (Nat × Nat × Nat)) ∧
    ((2,1,4) : Nat × Nat × Nat) ∈ ([(2,1,4),(0,2,4),(1,2,6)] : List (Nat × Nat × Nat)) :=
  ⟨by rfl, by decide, by decide⟩

/-- C7 (amended): for the pattern set ["he","hers","she"] registered in
that order and haystack "ushers", the standard-kind overlapping scan
yields exactly "she" at [1,4), "he" at [2,4) and "hers" at [2,6); "she"
does match because "s", "sh", "she" are trie prefixes of pattern "she". -/
theorem ushers_overlapping_matches :
    PyAhoCorasick.new [[104,101],[104,101,114,115],[115,104,101]]
        MatchKind.Standard none (some Implementation.NoncontiguousNFA) =
      Except.ok (PyAhoCorasick.mk (AcImpl.mk [[104,101],[104,101,114,115],[115,104,101]]
        MatchKind.Standard (some Implementation.NoncontiguousNFA))
        (some [[104,101],[104,101,114,115],[115,104,101]])) ∧
    PyAhoCorasick.findMatchesAsIndexes
        (PyAhoCorasick.mk (AcImpl.mk [[104,101],[104,101,114,115],[115,104,101]]
          MatchKind.Standard (some Implementation.NoncontiguousNFA))
          (some [[104,101],[104,101,114,115],[115,104,101]]))
        [117,115,104,101,114,115] true =
      Except.ok [(2,1,4),(0,2,4),(1,2,6)] :=
  ⟨by rfl, by rfl⟩

/-- C8: on patterns ["a","ab","abc"] (in registration order) and haystack
"abcd", a leftmost-longest automaton's non-overlapping scan yields exactly
"abc" at [0,3), while a leftmost-first automaton yields "a" at [0,1)
because "a" was registered first. -/
theorem leftmost_kinds_on_abcd :
    PyAhoCorasick.new [[97],[97,98],[97,98,99]] MatchKind.LeftmostLongest none
        (some Implementation.NoncontiguousNFA) =
      Except.ok (PyAhoCorasick.mk (AcImpl.mk [[97],[97,98],[97,98,99]]
        MatchKind.LeftmostLongest (some Implementation.NoncontiguousNFA))
        (some [[97],[97,98],[97,98,99]])) ∧
    PyAhoCorasick.findMatchesAsIndexes
        (PyAhoCorasick.mk (AcImpl.mk [[97],[97,98],[97,98,99]]
          MatchKind.LeftmostLongest (some Implementation.NoncontiguousNFA))
          (some [[97],[97,98],[97,98,99]]))
        [97,98,99,100] false = Except.ok [(2,0,3)] ∧
    PyAhoCorasick.new [[97],[97,98],[97,98,99]] MatchKind.LeftmostFirst none
        (some Implementation.NoncontiguousNFA) =
      Except.ok (PyAhoCorasick.mk (AcImpl.mk [[97],[97,98],[97,98,99]]
        MatchKind.LeftmostFirst (some Implementation.NoncontiguousNFA))
        (some [[97],[97,98],[97,98,99]])) ∧
    PyAhoCorasick.findMatchesAsIndexes
        (PyAhoCorasick.mk (AcImpl.mk [[97],[97,98],[97,98,99]]
          MatchKind.LeftmostFirst (some Implementation.NoncontiguousNFA))
          (some [[97],[97,98],[97,98,99]]))
        [97,98,99,100] false = Except.ok [(0,0,1)] :=
  ⟨by rfl, by rfl, by rfl, by rfl⟩

/-- C3: for every text-mode automaton and valid haystack, the indexes
reported by `find_matches_as_indexes` are codepoint indices: each reported
start (resp. end) equals the number of codepoints of the haystack strictly
before the match's start (resp. end) byte offset, including one-past-the-
end offsets. -/
theorem find_matches_as_indexes_codepoints (ps : List (List Nat)) (mk : MatchKind)
    (sp : Option Bool) (impl : Option Implementation) (hs : List Nat) (ov : Bool)
    (a : PyAhoCorasick)
    (hps : ∀ p ∈ ps, p ≠ [])
    (hhs : ∀ c ∈ hs, c < 1114112)
    (hnew : PyAhoCorasick.new ps mk sp impl = Except.ok a) :
    PyAhoCorasick.findMatchesAsIndexes a hs ov =
      (getMatches (ps.map utf8Encode) mk (nfaNext (ps.map utf8Encode))
          (utf8Encode hs) ov).map
        (List.map (fun m =>
          (m.1, codepointsBefore hs m.2.1, codepointsBefore hs m.2.2))) := by
  obtain ⟨hac, -, -⟩ := textNew_ok ps mk sp impl a hnew
  simp only [PyAhoCorasick.findMatchesAsIndexes]
  rw [hac]
  have hb : ∀ b ∈ utf8Encode hs, b < 256 := utf8Encode_lt256 hs hhs
  rw [show acNext (AcImpl.mk (ps.map utf8Encode) mk impl) =
      nextFor (ps.map utf8Encode) (impl.getD Implementation.DFA) from rfl]
  rw [getMatches_acNext (ps.map utf8Encode) mk impl (utf8Encode hs) ov hb]
  cases hg : getMatches (ps.map utf8Encode) mk (nfaNext (ps.map utf8Encode))
      (utf8Encode hs) ov with
  | error e => rfl
  | ok ms =>
    simp only [Except.map]
    congr 1
    apply List.map_congr_left
    intro m hm
    have hocc := getMatches_occurrence (ps.map utf8Encode) mk (utf8Encode hs) ov ms hg m hm
    obtain ⟨h1, h2, h3, h4⟩ := hocc
    have hplt : m.1 < ps.length := by simpa using h1
    have hpat : (ps.map utf8Encode).getD m.1 [] = utf8Encode (ps.getD m.1 []) :=
      getD_map_utf8 ps m.1 hplt
    rw [hpat] at h3 h4
    have hpne : ps.getD m.1 [] ≠ [] := hps _ (getD_mem_of_lt ps m.1 hplt)
    obtain ⟨hcs, hce⟩ :=
      match_offsets_codepoints hs (ps.getD m.1 []) m.2.1 m.2.2 hpne h2 h3 h4
    rw [hcs, hce]

/-- C3 witness: a concrete automaton, pattern and haystack. -/
theorem find_matches_as_indexes_codepoints_witness :
    PyAhoCorasick.findMatchesAsIndexes
        (PyAhoCorasick.mk (AcImpl.mk [[226,152,133,98]] MatchKind.Standard
          (some Implementation.NoncontiguousNFA)) (some [[9733,98]]))
        [99,9733,98] false =
      (getMatches (([[9733,98]] : List (List Nat)).map utf8Encode) MatchKind.Standard
          (nfaNext (([[9733,98]] : List (List Nat)).map utf8Encode))
          (utf8Encode [99,9733,98]) false).map
        (List.map (fun m =>
          (m.1, codepointsBefore [99,9733,98] m.2.1,
            codepointsBefore [99,9733,98] m.2.2))) :=
  find_matches_as_indexes_codepoints [[9733,98]] MatchKind.Standard none
    (some Implementation.NoncontiguousNFA) [99,9733,98] false
    (PyAhoCorasick.mk (AcImpl.mk [[226,152,133,98]] MatchKind.Standard
      (some Implementation.NoncontiguousNFA)) (some [[9733,98]]))
    (by intro p hp; rw [List.mem_singleton.mp hp]; exact List.cons_ne_nil _ _)
    (by intro c hc; rcases List.mem_cons.mp hc with h | hc2
        · omega
        · rcases List.mem_cons.mp hc2 with h | hc3
          · omega
          · rw [List.mem_singleton.mp hc3]; omega)
    (by rfl)

/-- The `find_matches_as_strings` result in canonical (haystack-re-slicing)
form, independently of whether patterns were retained. -/
theorem findMatchesAsStrings_canonical (ps : List (List Nat)) (mk : MatchKind)
    (sp : Option Bool) (impl : Option Implementation) (hs : List Nat) (ov : Bool)
    (a : PyAhoCorasick)
    (hhs : ∀ c ∈ hs, c < 1114112)
    (hnew : PyAhoCorasick.new ps mk sp impl = Except.ok a) :
    PyAhoCorasick.findMatchesAsStrings a hs ov =
      (getMatches (ps.map utf8Encode) mk (nfaNext (ps.map utf8Encode))
          (utf8Encode hs) ov).map
        (fun ms => ms.map (fun m => substring (utf8Encode hs) m.2.1 m.2.2)) := by
  obtain ⟨hac, hpats, -⟩ := textNew_ok ps mk sp impl a hnew
  simp only [PyAhoCorasick.findMatchesAsStrings]
  rw [hac]
  have hb : ∀ b ∈ utf8Encode hs, b < 256 := utf8Encode_lt256 hs hhs
  rw [show acNext (AcImpl.mk (ps.map utf8Encode) mk impl) =
      nextFor (ps.map utf8Encode) (impl.getD Implementation.DFA) from rfl]
  rw [getMatches_acNext (ps.map utf8Encode) mk impl (utf8Encode hs) ov hb]
  cases hg : getMatches (ps.map utf8Encode) mk (nfaNext (ps.map utf8Encode))
      (utf8Encode hs) ov with
  | error e => rfl
  | ok ms =>
    simp only [Except.map]
    rcases hpats with hnone | hsome
    · rw [hnone]
    · rw [hsome]
      congr 1
      apply List.map_congr_left
      intro m hm
      have hocc := getMatches_occurrence (ps.map utf8Encode) mk (utf8Encode hs) ov ms
        hg m hm
      obtain ⟨hlt, -, -, hsub⟩ := hocc
      have hplt : m.1 < ps.length := by simpa using hlt
      rw [getD_map_utf8 ps m.1 hplt] at hsub
      exact hsub.symm

/-- C9: `find_matches_as_strings` returns the same list of strings whether
or not the pattern strings were retained: the stored-pattern lookup path
and the haystack re-slicing path agree. -/
theorem find_matches_as_strings_retention_agnostic (ps : List (List Nat))
    (mk : MatchKind) (sp sp' : Option Bool) (impl : Option Implementation)
    (hs : List Nat) (ov : Bool) (a a' : PyAhoCorasick)
    (hhs : ∀ c ∈ hs, c < 1114112)
    (h1 : PyAhoCorasick.new ps mk sp impl = Except.ok a)
    (h2 : PyAhoCorasick.new ps mk sp' impl = Except.ok a') :
    PyAhoCorasick.findMatchesAsStrings a hs ov =
      PyAhoCorasick.findMatchesAsStrings a' hs ov := by
  rw [findMatchesAsStrings_canonical ps mk sp impl hs ov a hhs h1,
    findMatchesAsStrings_canonical ps mk sp' impl hs ov a' hhs h2]

/-- C9 witness: retaining and non-retaining automatons over the same
pattern set produce the same strings. -/
theorem find_matches_as_strings_retention_agnostic_witness :
    PyAhoCorasick.findMatchesAsStrings
        (PyAhoCorasick.mk (AcImpl.mk [[104,101]] MatchKind.Standard
          (some Implementation.NoncontiguousNFA)) (some [[104,101]]))
        [117,115,104,101] false =
      PyAhoCorasick.findMatchesAsStrings
        (PyAhoCorasick.mk (AcImpl.mk [[104,101]] MatchKind.Standard
          (some Implementation.NoncontiguousNFA)) none)
        [117,115,104,101] false :=
  find_matches_as_strings_retention_agnostic [[104,101]] MatchKind.Standard
    (some true) (some false) (some Implementation.NoncontiguousNFA)
    [117,115,104,101] false
    (PyAhoCorasick.mk (AcImpl.mk [[104,101]] MatchKind.Standard
      (some Implementation.NoncontiguousNFA)) (some [[104,101]]))
    (PyAhoCorasick.mk (AcImpl.mk [[104,101]] MatchKind.Standard
      (some Implementation.NoncontiguousNFA)) none)
    (by intro c hc
        rcases List.mem_cons.mp hc with h | hc2
        · omega
        · rcases List.mem_cons.mp hc2 with h | hc3
          · omega
          · rcases List.mem_cons.mp hc3 with h | hc4
            · omega
            · rw [List.mem_singleton.mp hc4]; omega)
    (by rfl) (by rfl)
